import Mathlib

/-!
Shallow embedding of the core simulation logic of `src/byzantine_gui.py`
(a Byzantine Oral Messages OM(f) demonstration).

The tkinter drawing, geometry and widget code of the source is presentation
only and is not modelled; the embedded functions mirror the state fields and
the control flow of the source.  Message-log keys are textual joins of id
paths in the source (`'-'.join(map(str, path))`); the join of decimal ids
with a separator character is injective on id sequences and is parsed back
with `list(map(int, path_str.split('-')))`, so keys are modelled directly as
lists of naturals.
-/

namespace Byz

/-- The two-valued domain of the protocol (`'Attack'` and `'Retreat'` in the
source). -/
inductive Value where
  | Attack
  | Retreat
deriving DecidableEq

/-- Embeds `get_majority` (lines 103-115).  The source counts occurrences of
`'Attack'` and `'Retreat'` in `values` and returns `'Attack'` exactly when
`counts['Attack'] > len(values) / 2` (a float comparison on integers, which
is `2 * count > len` on naturals); otherwise it returns `'Retreat'`, the
default.  Entries can be `None` in the source (a missing log entry), hence
the `Option Value` element type; `None` entries count toward the length but
toward neither value. -/
def get_majority (values : List (Option Value)) : Value :=
  if 2 * values.countP (fun v => v == some Value.Attack) > values.length then Value.Attack
  else Value.Retreat

/-- Embeds the state of class `Node` (lines 9-22).  The geometry fields
`x`, `y`, `radius` are drawing-only and are omitted.  `final_decision` is
`None` until `run_decision` stores the result of `resolve_decision` (itself
possibly `None`), hence the two `Option` layers. -/
structure Node where
  id : ℕ
  is_sender : Bool
  is_faulty : Bool
  message_log : List (List ℕ × Value)
  final_decision : Option (Option Value)
deriving DecidableEq

/-- Embeds `Node.get_faulty_value` (lines 24-30): honest nodes return the
original value; faulty nodes send `'Attack'` to even ids and `'Retreat'` to
odd ids, ignoring the original value. -/
def Node.get_faulty_value (nd : Node) (original_value : Value) (target_node_id : ℕ) : Value :=
  if nd.is_faulty = false then original_value
  else if target_node_id % 2 = 0 then Value.Attack else Value.Retreat

/-- Lookup in a Python dict modelled as an association list (first match;
keys are unique in any list built by `dictInsert` from `[]`). -/
def dictLookup (d : List (List ℕ × Value)) (k : List ℕ) : Option Value :=
  match d with
  | [] => none
  | (k', v) :: rest => if k' = k then some v else dictLookup rest k

/-- Assignment `d[k] = v` on a Python dict modelled as an association list:
replace in place if the key is present, else append. -/
def dictInsert (d : List (List ℕ × Value)) (k : List ℕ) (v : Value) :
    List (List ℕ × Value) :=
  match d with
  | [] => [(k, v)]
  | (k', v') :: rest => if k' = k then (k', v) :: rest else (k', v') :: dictInsert rest k v

/-- Embeds `Node.resolve_decision` (lines 37-60).  `nodeIds` is the list of
ids of `app.nodes` (the source reads the global node list, but only the ids
of its elements).  At `f = 0` the source returns the raw log lookup (which
may be `None`); otherwise it builds the candidate list from the current path
value followed by recursive values for every other node not on the path
whose extended path occurs in this node's log, in node-list order. -/
def resolve_decision (nodeIds : List ℕ) (selfId : ℕ) (log : List (List ℕ × Value)) :
    ℕ → List ℕ → Option Value
  | 0, path => dictLookup log path
  | f + 1, path =>
    some (get_majority (dictLookup log path ::
      (nodeIds.filter (fun q =>
        decide (q ≠ selfId) && decide (q ∉ path) && (dictLookup log (path ++ [q])).isSome)).map
        (fun q => resolve_decision nodeIds selfId log f (path ++ [q]))))

/-- Embeds `Node.run_decision` (lines 32-35): stores the result of the
recursive resolution started at path `[sender_node_id]`. -/
def Node.run_decision (nd : Node) (nodeIds : List ℕ) (F : ℕ) (sender_node_id : ℕ) : Node :=
  { nd with
      final_decision :=
        some (resolve_decision nodeIds nd.id nd.message_log F [sender_node_id]) }

/-- Embeds class `Message` (lines 87-93), dropping the drawing method; the
node references are replaced by the node ids (delivery only uses
`msg.to_node.message_log`, addressed here by id). -/
structure Message where
  from_id : ℕ
  to_id : ℕ
  value : Value
  path : List ℕ
deriving DecidableEq

/-- The values of `self.simulation_state` (line 135).  The source never
assigns an `'error'` state string; validation errors only change a label. -/
inductive Phase where
  | setup
  | ready
  | running
  | finished
deriving DecidableEq

/-- Embeds the simulation-state fields of `ByzantineGUI` (lines 127-135),
omitting the widgets.  `sender_value` is first assigned in
`setup_simulation`; its pre-setup content is the radio-button default. -/
structure SimState where
  nodes : List Node
  messages : List Message
  max_faulty : ℕ
  total_nodes : ℕ
  current_faulty : ℕ
  sender_id : ℕ
  current_round : ℕ
  simulation_state : Phase
  sender_value : Value
deriving DecidableEq

/-- The node list `[Node(i, x, y) for i in range(n)]` followed by
`self.nodes[sid].is_sender = True`, generalised over the log and decision
fields so that round lemmas can transform states in place.  Node `i` sits at
index `i`, so the index-based sender assignment is the id-based one. -/
def shapeNodes (n sid : ℕ) (flt : ℕ → Bool) (Lg : ℕ → List (List ℕ × Value))
    (Dc : ℕ → Option (Option Value)) : List Node :=
  (List.range n).map (fun i =>
    { id := i, is_sender := decide (i = sid), is_faulty := flt i,
      message_log := Lg i, final_decision := Dc i })

/-- The state of the freshly constructed `ByzantineGUI` object
(lines 127-135), before `on_f_changed` runs the initial setup. -/
def initialState : SimState :=
  { nodes := [], messages := [], max_faulty := 1, total_nodes := 4, current_faulty := 0,
    sender_id := 0, current_round := 0, simulation_state := Phase.setup,
    sender_value := Value.Attack }

/-- Result of the validation block of `setup_simulation`; the two error
cases correspond to the two distinct error labels of lines 230 and 237. -/
inductive SetupResult where
  | ok
  | errBelowMin (required_min : ℕ)
  | errNonNumeric
deriving DecidableEq

/-- Embeds `setup_simulation` (lines 221-265).  `f_input` is `f_var`,
`n_input` is `int(n_var)` (`none` models the `ValueError` of a non-numeric
entry; negative entries parse, hence `ℤ`).  On validation failure the source
still updates `max_faulty`, clears the canvas and sets `self.nodes = []`,
`self.messages = []`, then returns without touching the phase or round. -/
def setup_simulation (s : SimState) (f_input : ℕ) (n_input : Option ℤ) (sv : Value) :
    SimState × SetupResult :=
  match n_input with
  | none =>
    ({ s with max_faulty := f_input, nodes := [], messages := [] }, SetupResult.errNonNumeric)
  | some z =>
    if z < ((3 * f_input + 1 : ℕ) : ℤ) then
      ({ s with max_faulty := f_input, nodes := [], messages := [] },
        SetupResult.errBelowMin (3 * f_input + 1))
    else
      ({ s with
          max_faulty := f_input, total_nodes := z.toNat, sender_value := sv,
          nodes := shapeNodes z.toNat s.sender_id (fun _ => false) (fun _ => []) (fun _ => none),
          messages := [], current_round := 0, current_faulty := 0,
          simulation_state := Phase.ready }, SetupResult.ok)

/-- Embeds the state change of `on_canvas_click` (lines 352-372) once the
geometric hit test has resolved the click to the node with id `target` (the
hit test itself is presentation logic over pixel coordinates).  Ids are
unique, so locating the clicked node by id matches the source's first-hit
loop.  `current_faulty - 1` is natural subtraction; the source only
decrements when a faulty node exists, so the count is then positive. -/
def toggle_faulty (s : SimState) (target : ℕ) : SimState :=
  if s.simulation_state ≠ Phase.ready then s
  else
    match s.nodes.find? (fun nd => nd.id == target) with
    | none => s
    | some nd =>
      if nd.is_sender then s
      else if nd.is_faulty then
        { s with
            nodes := s.nodes.map (fun m =>
              if m.id = target then { m with is_faulty := false } else m),
            current_faulty := s.current_faulty - 1 }
      else if s.current_faulty < s.max_faulty then
        { s with
            nodes := s.nodes.map (fun m =>
              if m.id = target then { m with is_faulty := true } else m),
            current_faulty := s.current_faulty + 1 }
      else s

/-- Round-1 message construction of `run_next_round` (lines 279-289): the
sender (`self.nodes[self.sender_id]`, a positional index) sends to every
other node with path `[sender.id]`. -/
def buildRound1 (nodes : List Node) (sender_id : ℕ) (sender_value : Value) : List Message :=
  match nodes[sender_id]? with
  | none => []
  | some sender =>
    nodes.filterMap (fun node =>
      if node.id = sender.id then none
      else some { from_id := sender.id, to_id := node.id,
                  value := sender.get_faulty_value sender_value node.id,
                  path := [sender.id] })

/-- Relay-round message construction of `run_next_round` (lines 291-304) for
round `r ≥ 2`: every node relays each entry of its log whose path has length
`r - 1` to every other node not on that path, appending its own id to the
path and passing the value through `get_faulty_value`. -/
def buildRelay (nodes : List Node) (r : ℕ) : List Message :=
  nodes.flatMap (fun sender_node =>
    sender_node.message_log.flatMap (fun entry =>
      if entry.1.length = r - 1 then
        nodes.filterMap (fun receiver_node =>
          if receiver_node.id ≠ sender_node.id ∧ receiver_node.id ∉ entry.1 then
            some { from_id := sender_node.id, to_id := receiver_node.id,
                   value := sender_node.get_faulty_value entry.2 receiver_node.id,
                   path := entry.1 ++ [sender_node.id] }
          else none)
      else []))

/-- Embeds `deliver_messages` (lines 320-324): each message writes its
(path, value) pair into the recipient's log, in message-list order. -/
def deliver_messages (nodes : List Node) (msgs : List Message) : List Node :=
  msgs.foldl (fun acc msg =>
    acc.map (fun nd =>
      if nd.id = msg.to_id then
        { nd with message_log := dictInsert nd.message_log msg.path msg.value }
      else nd)) nodes

/-- The message list the incremented round of `run_next_round` constructs
(lines 276-304): direct broadcast in round 1, relays in rounds
`2 … max_faulty + 1`, nothing beyond. -/
def advance_messages (s : SimState) : List Message :=
  if s.current_round + 1 = 1 then buildRound1 s.nodes s.sender_id s.sender_value
  else if s.current_round + 1 ≤ s.max_faulty + 1 then buildRelay s.nodes (s.current_round + 1)
  else []

/-- Embeds `run_next_round` (lines 267-318).  The guard of lines 269-274
returns unchanged unless the state is `ready` (which starts the run) or
`running`.  The round counter is incremented, this round's messages are
built from the logs as of the end of the previous round, delivered, and if
the new round exceeds `max_faulty` the state becomes `finished` and every
non-faulty node runs the decision resolution (which reads only the node ids
of the global list and the deciding node's own log). -/
def run_next_round (s : SimState) : SimState :=
  if s.simulation_state = Phase.ready ∨ s.simulation_state = Phase.running then
    if s.current_round + 1 > s.max_faulty then
      { s with
          current_round := s.current_round + 1, messages := advance_messages s,
          simulation_state := Phase.finished,
          nodes := (deliver_messages s.nodes (advance_messages s)).map (fun nd =>
            if nd.is_faulty = false then
              nd.run_decision
                ((deliver_messages s.nodes (advance_messages s)).map Node.id)
                s.max_faulty s.sender_id
            else nd) }
    else
      { s with
          current_round := s.current_round + 1, messages := advance_messages s,
          simulation_state := Phase.running,
          nodes := deliver_messages s.nodes (advance_messages s) }
  else s

/-- A configured simulation: the state after a successful `setup_simulation`
with `n` nodes and limit `f`, followed by clicks that set the faulty flags
according to `flt`.  The source's click handler keeps `current_faulty` equal
to the number of faulty nodes; rounds and decisions never read that field. -/
def configuredState (n f : ℕ) (sv : Value) (flt : ℕ → Bool) : SimState :=
  { nodes := shapeNodes n 0 flt (fun _ => []) (fun _ => none),
    messages := [], max_faulty := f, total_nodes := n,
    current_faulty := ((List.range n).filter (fun i => flt i)).length,
    sender_id := 0, current_round := 0, simulation_state := Phase.ready,
    sender_value := sv }

/-- A full run: the `f + 1` `Next Round` clicks that drive a configured
simulation to `finished`. -/
def runSim (n f : ℕ) (sv : Value) (flt : ℕ → Bool) : SimState :=
  run_next_round^[f + 1] (configuredState n f sv flt)

/-- The decision stored at the node with id `i` (nodes sit at the index
equal to their id in every reachable state): `none` when the node is absent
or has not decided, `some d` when `run_decision` stored `d`. -/
def finalDecisionAt (s : SimState) (i : ℕ) : Option (Option Value) :=
  (s.nodes[i]?).bind Node.final_decision

/-- The message log of the node with id `i`, when present. -/
def messageLogAt (s : SimState) (i : ℕ) : Option (List (List ℕ × Value)) :=
  (s.nodes[i]?).map Node.message_log

/-!
Denotational counterparts used to characterise the operational run: the
value carried to a recipient along a relay path, in closed form.
-/

/-- The value a node with faulty flag `faulty` transmits to `target`
(the body of `get_faulty_value` as a pure function of the flag). -/
def transmit (v : Value) (faulty : Bool) (target : ℕ) : Value :=
  if faulty then (if target % 2 = 0 then Value.Attack else Value.Retreat) else v

/-- The value delivered to recipient `x` along the reversed relay chain
`rev` (most recent relayer first); the singleton case is the commander's
direct broadcast of `sv`. -/
def sentValRev (flt : ℕ → Bool) (sv : Value) : List ℕ → ℕ → Value
  | [], _ => sv
  | [c], x => transmit sv (flt c) x
  | p :: q :: rest, x => transmit (sentValRev flt sv (q :: rest) p) (flt p) x

/-- The value delivered to recipient `x` along path `π` (commander first). -/
def chainVal (flt : ℕ → Bool) (sv : Value) (π : List ℕ) (x : ℕ) : Value :=
  sentValRev flt sv π.reverse x

/-- The value the last relayer of `π` would forward if honest: the value it
itself received (for the commander, the configured `sv`).  When the last
relayer is honest this is `chainVal π x` for every recipient `x`. -/
def relayVal (flt : ℕ → Bool) (sv : Value) (π : List ℕ) : Value :=
  match π.reverse with
  | [] => sv
  | [_] => sv
  | p :: q :: rest => sentValRev flt sv (q :: rest) p

/-- Paths that can occur as log keys in a run with `n` nodes: they start at
the commander (id 0), never repeat an id, and mention only existing ids. -/
def validPath (n : ℕ) (π : List ℕ) : Prop :=
  π.head? = some 0 ∧ π.Nodup ∧ ∀ i ∈ π, i < n

instance (n : ℕ) (π : List ℕ) : Decidable (validPath n π) := by
  unfold validPath; infer_instance

/-- The closed form of node `x`'s log lookup after `k` completed rounds. -/
def specLookup (flt : ℕ → Bool) (sv : Value) (n k x : ℕ) (π : List ℕ) : Option Value :=
  if validPath n π ∧ x ∉ π ∧ π.length ≤ k then some (chainVal flt sv π x) else none

/-- `resolve_decision` with the log lookup abstracted into a function; the
two agree when `lk` is the log's `dictLookup` (proved below). -/
def resolveF (nodeIds : List ℕ) (selfId : ℕ) (lk : List ℕ → Option Value) :
    ℕ → List ℕ → Option Value
  | 0, path => lk path
  | f + 1, path =>
    some (get_majority (lk path ::
      (nodeIds.filter (fun q =>
        decide (q ≠ selfId) && decide (q ∉ path) && (lk (path ++ [q])).isSome)).map
        (fun q => resolveF nodeIds selfId lk f (path ++ [q]))))

/-- Per-round per-message log update of `deliver_messages`, restricted to
one recipient id: the inserts a node with id `x` receives, in order. -/
def foldLog (x : ℕ) (lg : List (List ℕ × Value)) (msgs : List Message) :
    List (List ℕ × Value) :=
  msgs.foldl (fun acc m => if m.to_id = x then dictInsert acc m.path m.value else acc) lg

/-- The two facts that pin a node's log as a finite map after `k` rounds:
every entry is a valid path of length at most `k`, avoiding the owner, and
carries the closed-form value; and every such path is present. -/
def GoodLog (flt : ℕ → Bool) (sv : Value) (n k i : ℕ)
    (lg : List (List ℕ × Value)) : Prop :=
  (∀ π v, (π, v) ∈ lg →
    validPath n π ∧ i ∉ π ∧ π.length ≤ k ∧ v = chainVal flt sv π i) ∧
  (∀ π, validPath n π → i ∉ π → π.length ≤ k → (dictLookup lg π).isSome)

/-- The reachable-state invariant after `k` successful round advances from
a configured simulation. -/
def Inv (n f : ℕ) (sv : Value) (flt : ℕ → Bool) (k : ℕ) (s : SimState) : Prop :=
  ∃ Lg Dc,
    s.nodes = shapeNodes n 0 flt Lg Dc ∧
    (∀ i, i < n → GoodLog flt sv n k i (Lg i)) ∧
    (∀ i, i < n → Dc i =
      if k = f + 1 ∧ flt i = false
      then some (resolve_decision (List.range n) i (Lg i) f [0]) else none) ∧
    s.max_faulty = f ∧ s.total_nodes = n ∧
    s.current_faulty = ((List.range n).filter (fun i => flt i)).length ∧
    s.sender_id = 0 ∧ s.sender_value = sv ∧ s.current_round = k ∧
    s.simulation_state =
      (if k = 0 then Phase.ready else if k ≤ f then Phase.running else Phase.finished) ∧
    (∀ m ∈ s.messages,
      m.path.length = k ∧ m.path.Nodup ∧ m.path.head? = some 0 ∧ m.to_id ∉ m.path)

/-! Dictionary lemmas. -/

theorem dictLookup_nil (k : List ℕ) : dictLookup [] k = none := rfl

theorem dictLookup_cons (a : List ℕ) (b : Value) (t : List (List ℕ × Value)) (k : List ℕ) :
    dictLookup ((a, b) :: t) k = if a = k then some b else dictLookup t k := rfl

theorem dictInsert_nil (k : List ℕ) (v : Value) : dictInsert [] k v = [(k, v)] := rfl

theorem dictInsert_cons (a : List ℕ) (b : Value) (t : List (List ℕ × Value))
    (k : List ℕ) (v : Value) :
    dictInsert ((a, b) :: t) k v =
      if a = k then (a, v) :: t else (a, b) :: dictInsert t k v := rfl

theorem dictLookup_insert (lg : List (List ℕ × Value)) (k k' : List ℕ) (v : Value) :
    dictLookup (dictInsert lg k v) k' = if k = k' then some v else dictLookup lg k' := by
  induction lg with
  | nil => rfl
  | cons e rest ih =>
    obtain ⟨ek, ev⟩ := e
    rw [dictInsert_cons]
    by_cases h : ek = k
    · rw [if_pos h]
      subst h
      rw [dictLookup_cons, dictLookup_cons]
      by_cases h2 : ek = k'
      · rw [if_pos h2, if_pos h2]
      · rw [if_neg h2, if_neg h2, if_neg h2]
    · rw [if_neg h, dictLookup_cons, dictLookup_cons, ih]
      by_cases h2 : ek = k'
      · have hk : ¬ k = k' := fun hh => h (h2.trans hh.symm)
        rw [if_pos h2, if_neg hk, if_pos h2]
      · rw [if_neg h2, if_neg h2]

theorem mem_dictInsert (lg : List (List ℕ × Value)) (k : List ℕ) (v : Value)
    (π : List ℕ) (w : Value) (h : (π, w) ∈ dictInsert lg k v) :
    (π, w) ∈ lg ∨ (π = k ∧ w = v) := by
  induction lg with
  | nil =>
    rw [dictInsert_nil] at h
    have heq := List.mem_singleton.mp h
    injection heq with h1 h2
    exact Or.inr ⟨h1, h2⟩
  | cons e rest ih =>
    obtain ⟨ek, ev⟩ := e
    rw [dictInsert_cons] at h
    by_cases he : ek = k
    · rw [if_pos he] at h
      rcases List.mem_cons.mp h with h' | h'
      · injection h' with h1 h2
        exact Or.inr ⟨h1.trans he, h2⟩
      · exact Or.inl (List.mem_cons_of_mem _ h')
    · rw [if_neg he] at h
      rcases List.mem_cons.mp h with h' | h'
      · exact Or.inl (List.mem_cons.mpr (Or.inl h'))
      · rcases ih h' with h'' | h''
        · exact Or.inl (List.mem_cons_of_mem _ h'')
        · exact Or.inr h''

theorem dictLookup_eq_some_mem {lg : List (List ℕ × Value)} {κ : List ℕ} {v : Value}
    (h : dictLookup lg κ = some v) : (κ, v) ∈ lg := by
  induction lg with
  | nil => exact absurd h (by rw [dictLookup_nil]; intro hh; exact Option.noConfusion hh)
  | cons e rest ih =>
    obtain ⟨ek, ev⟩ := e
    rw [dictLookup_cons] at h
    by_cases he : ek = κ
    · subst he
      rw [if_pos rfl] at h
      injection h with hv
      rw [← hv]
      exact List.mem_cons_self _ _
    · rw [if_neg he] at h
      exact List.mem_cons_of_mem _ (ih h)

/-! Per-recipient delivery lemmas. -/

theorem foldLog_isSome (x : ℕ) (msgs : List Message) :
    ∀ lg κ, (dictLookup (foldLog x lg msgs) κ).isSome = true ↔
      ((dictLookup lg κ).isSome = true ∨ ∃ m ∈ msgs, m.to_id = x ∧ m.path = κ) := by
  induction msgs with
  | nil => intro lg κ; simp [foldLog]
  | cons m ms ih =>
    intro lg κ
    have hstep : foldLog x lg (m :: ms) =
        foldLog x (if m.to_id = x then dictInsert lg m.path m.value else lg) ms := rfl
    rw [hstep, ih]
    by_cases hto : m.to_id = x
    · rw [if_pos hto, dictLookup_insert]
      by_cases hp : m.path = κ
      · simp [hp, hto]
      · simp only [if_neg hp, List.mem_cons]
        constructor
        · rintro (h | h)
          · exact Or.inl h
          · exact Or.inr (by
              obtain ⟨mm, hmm, h1, h2⟩ := h
              exact ⟨mm, Or.inr hmm, h1, h2⟩)
        · rintro (h | ⟨mm, hmm | hmm, h1, h2⟩)
          · exact Or.inl h
          · subst hmm; exact absurd h2 hp
          · exact Or.inr ⟨mm, hmm, h1, h2⟩
    · rw [if_neg hto]
      simp only [List.mem_cons]
      constructor
      · rintro (h | ⟨mm, hmm, h1, h2⟩)
        · exact Or.inl h
        · exact Or.inr ⟨mm, Or.inr hmm, h1, h2⟩
      · rintro (h | ⟨mm, hmm | hmm, h1, h2⟩)
        · exact Or.inl h
        · subst hmm; exact absurd h1 hto
        · exact Or.inr ⟨mm, hmm, h1, h2⟩

theorem mem_foldLog (x : ℕ) (msgs : List Message) :
    ∀ lg π v, (π, v) ∈ foldLog x lg msgs →
      (π, v) ∈ lg ∨ ∃ m ∈ msgs, m.to_id = x ∧ m.path = π ∧ m.value = v := by
  induction msgs with
  | nil => intro lg π v h; exact Or.inl h
  | cons m ms ih =>
    intro lg π v h
    have hstep : foldLog x lg (m :: ms) =
        foldLog x (if m.to_id = x then dictInsert lg m.path m.value else lg) ms := rfl
    rw [hstep] at h
    rcases ih _ π v h with h' | ⟨mm, hmm, h1, h2, h3⟩
    · by_cases hto : m.to_id = x
      · rw [if_pos hto] at h'
        rcases mem_dictInsert _ _ _ _ _ h' with h'' | ⟨hp, hv⟩
        · exact Or.inl h''
        · exact Or.inr ⟨m, List.mem_cons_self _ _, hto, hp.symm, hv.symm⟩
      · rw [if_neg hto] at h'
        exact Or.inl h'
    · exact Or.inr ⟨mm, List.mem_cons_of_mem _ hmm, h1, h2, h3⟩

/-! Delivery as a per-node map. -/

theorem deliver_messages_eq_map (msgs : List Message) :
    ∀ nodes : List Node, deliver_messages nodes msgs =
      nodes.map (fun nd => { nd with message_log := foldLog nd.id nd.message_log msgs }) := by
  induction msgs with
  | nil =>
    intro nodes
    show nodes = _
    conv_lhs => rw [← List.map_id nodes]
    rfl
  | cons m ms ih =>
    intro nodes
    have h1 : deliver_messages nodes (m :: ms) =
        deliver_messages (nodes.map (fun nd =>
          if nd.id = m.to_id then
            { nd with message_log := dictInsert nd.message_log m.path m.value }
          else nd)) ms := rfl
    rw [h1, ih, List.map_map]
    apply List.map_congr_left
    intro nd _
    simp only [Function.comp]
    by_cases h : nd.id = m.to_id
    · rw [if_pos h]
      have hf : foldLog nd.id nd.message_log (m :: ms) =
          foldLog nd.id (dictInsert nd.message_log m.path m.value) ms := by
        have : foldLog nd.id nd.message_log (m :: ms) =
            foldLog nd.id (if m.to_id = nd.id then
              dictInsert nd.message_log m.path m.value else nd.message_log) ms := rfl
        rw [this, if_pos h.symm]
      rw [hf]
    · rw [if_neg h]
      have hf : foldLog nd.id nd.message_log (m :: ms) =
          foldLog nd.id nd.message_log ms := by
        have : foldLog nd.id nd.message_log (m :: ms) =
            foldLog nd.id (if m.to_id = nd.id then
              dictInsert nd.message_log m.path m.value else nd.message_log) ms := rfl
        rw [this, if_neg (fun hh => h hh.symm)]
      rw [hf]

theorem deliver_shape (n sid : ℕ) (flt : ℕ → Bool) (Lg : ℕ → List (List ℕ × Value))
    (Dc : ℕ → Option (Option Value)) (msgs : List Message) :
    deliver_messages (shapeNodes n sid flt Lg Dc) msgs =
      shapeNodes n sid flt (fun i => foldLog i (Lg i) msgs) Dc := by
  rw [deliver_messages_eq_map]
  unfold shapeNodes
  rw [List.map_map]
  rfl

/-! Shape lemmas. -/

theorem shapeNodes_getElem (n sid : ℕ) (flt : ℕ → Bool) (Lg : ℕ → List (List ℕ × Value))
    (Dc : ℕ → Option (Option Value)) (i : ℕ) (hi : i < n) :
    (shapeNodes n sid flt Lg Dc)[i]? =
      some { id := i, is_sender := decide (i = sid), is_faulty := flt i,
             message_log := Lg i, final_decision := Dc i } := by
  unfold shapeNodes
  rw [List.getElem?_map, List.getElem?_range hi]
  rfl

theorem shapeNodes_map_id (n sid : ℕ) (flt : ℕ → Bool) (Lg : ℕ → List (List ℕ × Value))
    (Dc : ℕ → Option (Option Value)) :
    (shapeNodes n sid flt Lg Dc).map Node.id = List.range n := by
  unfold shapeNodes
  rw [List.map_map]
  exact List.map_id _

theorem mem_shapeNodes (n sid : ℕ) (flt : ℕ → Bool) (Lg : ℕ → List (List ℕ × Value))
    (Dc : ℕ → Option (Option Value)) (nd : Node) :
    nd ∈ shapeNodes n sid flt Lg Dc ↔
      ∃ i, i < n ∧ nd = { id := i, is_sender := decide (i = sid), is_faulty := flt i,
                          message_log := Lg i, final_decision := Dc i } := by
  unfold shapeNodes
  simp only [List.mem_map, List.mem_range]
  constructor
  · rintro ⟨i, hi, h⟩; exact ⟨i, hi, h.symm⟩
  · rintro ⟨i, hi, h⟩; exact ⟨i, hi, h.symm⟩

/-! Closed-form chain-value lemmas. -/

theorem transmit_honest (v : Value) (x : ℕ) : transmit v false x = v := rfl

theorem chainVal_single (flt : ℕ → Bool) (sv : Value) (c x : ℕ) :
    chainVal flt sv [c] x = transmit sv (flt c) x := rfl

theorem reverse_cons_of_ne_nil {π : List ℕ} (h : π ≠ []) :
    ∃ q rest, π.reverse = q :: rest := by
  cases hr : π.reverse with
  | nil => exact absurd (List.reverse_eq_nil_iff.mp hr) h
  | cons q rest => exact ⟨q, rest, rfl⟩

theorem reverse_snoc (π : List ℕ) (p : ℕ) : (π ++ [p]).reverse = p :: π.reverse := by
  simp

theorem chainVal_snoc (flt : ℕ → Bool) (sv : Value) (π : List ℕ) (p x : ℕ) (h : π ≠ []) :
    chainVal flt sv (π ++ [p]) x = transmit (chainVal flt sv π p) (flt p) x := by
  obtain ⟨q, rest, hqr⟩ := reverse_cons_of_ne_nil h
  unfold chainVal
  rw [reverse_snoc, hqr]
  rfl

theorem relayVal_single (flt : ℕ → Bool) (sv : Value) (c : ℕ) :
    relayVal flt sv [c] = sv := rfl

theorem relayVal_snoc (flt : ℕ → Bool) (sv : Value) (π : List ℕ) (p : ℕ) (h : π ≠ []) :
    relayVal flt sv (π ++ [p]) = chainVal flt sv π p := by
  obtain ⟨q, rest, hqr⟩ := reverse_cons_of_ne_nil h
  unfold relayVal chainVal
  rw [reverse_snoc, hqr]

theorem getLastD_of_reverse {π : List ℕ} {q : ℕ} {rest : List ℕ}
    (hqr : π.reverse = q :: rest) : π.getLastD 0 = q := by
  rw [List.getLastD_eq_getLast?, ← List.head?_reverse, hqr]
  rfl

theorem chainVal_honest (flt : ℕ → Bool) (sv : Value) (π : List ℕ) (x : ℕ)
    (h : π ≠ []) (hh : flt (π.getLastD 0) = false) :
    chainVal flt sv π x = relayVal flt sv π := by
  obtain ⟨q, rest, hqr⟩ := reverse_cons_of_ne_nil h
  have hq : flt q = false := by rw [← getLastD_of_reverse hqr]; exact hh
  unfold chainVal relayVal
  rw [hqr]
  cases rest with
  | nil => show transmit sv (flt q) x = sv; rw [hq]; rfl
  | cons r t => show transmit (sentValRev flt sv (r :: t) q) (flt q) x = _; rw [hq]; rfl

/-! Valid-path lemmas. -/

theorem validPath_ne_nil {n : ℕ} {π : List ℕ} (h : validPath n π) : π ≠ [] := by
  rcases h with ⟨h1, -, -⟩
  intro he
  subst he
  simp at h1

theorem validPath_snoc {n : ℕ} {π : List ℕ} {p : ℕ} (h : validPath n π)
    (hp : p < n) (hnp : p ∉ π) : validPath n (π ++ [p]) := by
  obtain ⟨h1, h2, h3⟩ := h
  refine ⟨?_, ?_, ?_⟩
  · cases π with
    | nil => simp at h1
    | cons a t => simpa using h1
  · rw [List.nodup_append]
    refine ⟨h2, List.nodup_singleton p, ?_⟩
    intro a ha hap
    rw [List.mem_singleton] at hap
    subst hap
    exact hnp ha
  · intro i hi
    rcases List.mem_append.mp hi with hi | hi
    · exact h3 i hi
    · rw [List.mem_singleton] at hi
      subst hi
      exact hp

theorem validPath_decompose {n : ℕ} {κ : List ℕ} (h : validPath n κ) (hl : 2 ≤ κ.length) :
    κ = κ.dropLast ++ [κ.getLastD 0] ∧ validPath n κ.dropLast ∧
      κ.getLastD 0 < n ∧ κ.getLastD 0 ∉ κ.dropLast := by
  obtain ⟨h1, h2, h3⟩ := h
  have hne : κ ≠ [] := by intro he; subst he; simp at h1
  have hgd : κ.getLastD 0 = κ.getLast hne := by
    rw [List.getLastD_eq_getLast?, List.getLast?_eq_getLast κ hne]
    rfl
  have heq : κ.dropLast ++ [κ.getLastD 0] = κ := by
    rw [hgd]
    exact List.dropLast_append_getLast hne
  have hmemlast : κ.getLastD 0 ∈ κ := by
    rw [hgd]
    exact List.getLast_mem hne
  have hnodup : κ.dropLast.Nodup ∧ [κ.getLastD 0].Nodup ∧
      κ.dropLast.Disjoint [κ.getLastD 0] := by
    rw [← List.nodup_append, heq]
    exact h2
  have hdl : κ.dropLast.head? = κ.head? := by
    cases κ with
    | nil => exact absurd rfl hne
    | cons a t =>
      cases t with
      | nil => simp at hl
      | cons b u => rw [List.dropLast_cons₂]; rfl
  refine ⟨heq.symm, ⟨?_, hnodup.1, ?_⟩, h3 _ hmemlast, ?_⟩
  · rw [hdl]
    exact h1
  · intro i hi
    exact h3 i (by rw [← heq]; exact List.mem_append.mpr (Or.inl hi))
  · intro hmem
    exact hnodup.2.2 hmem (List.mem_singleton_self _)

/-! Bridging `resolve_decision` to the lookup-abstracted form. -/

theorem resolve_decision_eq_resolveF (ids : List ℕ) (sid : ℕ)
    (log : List (List ℕ × Value)) :
    ∀ f path, resolve_decision ids sid log f path =
      resolveF ids sid (dictLookup log) f path := by
  intro f
  induction f with
  | zero => intro path; rfl
  | succ g ih =>
    intro path
    simp only [resolve_decision, resolveF]
    have hmap : (ids.filter (fun q =>
        decide (q ≠ sid) && decide (q ∉ path) && (dictLookup log (path ++ [q])).isSome)).map
          (fun q => resolve_decision ids sid log g (path ++ [q])) =
        (ids.filter (fun q =>
        decide (q ≠ sid) && decide (q ∉ path) && (dictLookup log (path ++ [q])).isSome)).map
          (fun q => resolveF ids sid (dictLookup log) g (path ++ [q])) :=
      List.map_congr_left (fun q _ => ih _)
    rw [hmap]

theorem goodLog_dictLookup {flt : ℕ → Bool} {sv : Value} {n k i : ℕ}
    {lg : List (List ℕ × Value)} (hg : GoodLog flt sv n k i lg) :
    dictLookup lg = specLookup flt sv n k i := by
  funext π
  rcases hg with ⟨hent, hdom⟩
  unfold specLookup
  by_cases hc : validPath n π ∧ i ∉ π ∧ π.length ≤ k
  · rw [if_pos hc]
    have hs := hdom π hc.1 hc.2.1 hc.2.2
    cases hl : dictLookup lg π with
    | none => rw [hl] at hs; simp at hs
    | some v =>
      have hmem := dictLookup_eq_some_mem hl
      rw [(hent π v hmem).2.2.2]
  · rw [if_neg hc]
    cases hl : dictLookup lg π with
    | none => rfl
    | some v =>
      exfalso
      apply hc
      obtain ⟨h1, h2, h3, -⟩ := hent π v (dictLookup_eq_some_mem hl)
      exact ⟨h1, h2, h3⟩

/-! Counting helpers for the majority arguments. -/

theorem countP_split {α : Type} (p q : α → Bool) (l : List α) :
    l.countP p = l.countP (fun a => p a && q a) + l.countP (fun a => p a && !q a) := by
  induction l with
  | nil => rfl
  | cons a t ih =>
    simp only [List.countP_cons, ih]
    cases hp : p a <;> cases hq : q a <;> simp [hp, hq] <;> omega

theorem length_filter_range (n : ℕ) (p : ℕ → Bool) :
    ((List.range n).filter p).length = ((Finset.range n).filter (fun q => p q = true)).card := by
  induction n with
  | zero => rfl
  | succ m ih =>
    rw [List.range_succ, List.filter_append, List.length_append, ih, Finset.range_succ,
        Finset.filter_insert]
    by_cases h : p m = true
    · rw [if_pos h, Finset.card_insert_of_not_mem (by simp)]
      simp [h]
    · rw [if_neg h]
      simp [h]

theorem length_children (n L : ℕ) (π : List ℕ) (hnd : π.Nodup)
    (hsub : ∀ i ∈ π, i < n) (hL : L < n) (hLπ : L ∉ π) :
    ((List.range n).filter (fun q => decide (q ≠ L) && decide (q ∉ π))).length
      = n - (π.length + 1) := by
  rw [length_filter_range]
  have hset : (Finset.range n).filter (fun q => (decide (q ≠ L) && decide (q ∉ π)) = true)
      = Finset.range n \ insert L π.toFinset := by
    ext q
    simp only [Finset.mem_filter, Finset.mem_sdiff, Finset.mem_insert, List.mem_toFinset,
      Bool.and_eq_true, decide_eq_true_eq]
    constructor
    · rintro ⟨hq, h1, h2⟩
      exact ⟨hq, fun hc => hc.elim h1 h2⟩
    · rintro ⟨hq, hc⟩
      exact ⟨hq, fun he => hc (Or.inl he), fun he => hc (Or.inr he)⟩
  rw [hset, Finset.card_sdiff, Finset.card_range]
  · rw [Finset.card_insert_of_not_mem (by rw [List.mem_toFinset]; exact hLπ),
        List.toFinset_card_of_nodup hnd]
  · intro q hq
    rcases Finset.mem_insert.mp hq with h | h
    · subst h
      exact Finset.mem_range.mpr hL
    · exact Finset.mem_range.mpr (hsub q (List.mem_toFinset.mp h))

theorem countP_flt_filter_le (n f : ℕ) (flt : ℕ → Bool) (p : ℕ → Bool)
    (hcard : ((List.range n).filter (fun i => flt i)).length ≤ f) :
    ((List.range n).filter p).countP (fun q => flt q) ≤ f := by
  have h1 : ((List.range n).filter p).countP (fun q => flt q)
      ≤ (List.range n).countP (fun q => flt q) :=
    List.Sublist.countP_le _ (List.filter_sublist _)
  have h2 : (List.range n).countP (fun q => flt q)
      = ((List.range n).filter (fun i => flt i)).length :=
    List.countP_eq_length_filter _ _
  exact le_trans (h1.trans_eq h2) hcard

theorem nodup_length_le_faulty (n f : ℕ) (flt : ℕ → Bool) (π : List ℕ)
    (hnd : π.Nodup) (hsub : ∀ i ∈ π, i < n) (hflt : ∀ i ∈ π, flt i = true)
    (hcard : ((List.range n).filter (fun i => flt i)).length ≤ f) :
    π.length ≤ f := by
  have hsubF : π.toFinset ⊆ (Finset.range n).filter (fun i => flt i = true) := by
    intro i hi
    rw [List.mem_toFinset] at hi
    exact Finset.mem_filter.mpr ⟨Finset.mem_range.mpr (hsub i hi), hflt i hi⟩
  have := Finset.card_le_card hsubF
  rw [List.toFinset_card_of_nodup hnd] at this
  rw [length_filter_range] at hcard
  exact le_trans this hcard

theorem getLastD_snoc (π : List ℕ) (q : ℕ) : (π ++ [q]).getLastD 0 = q :=
  getLastD_of_reverse (reverse_snoc π q)

/-! Unfolding lemmas for the abstract resolution function. -/

theorem resolveF_succ (ids : List ℕ) (sid : ℕ) (lk : List ℕ → Option Value)
    (g : ℕ) (path : List ℕ) :
    resolveF ids sid lk (g + 1) path =
      some (get_majority (lk path ::
        (ids.filter (fun q =>
          decide (q ≠ sid) && decide (q ∉ path) && (lk (path ++ [q])).isSome)).map
          (fun q => resolveF ids sid lk g (path ++ [q])))) := rfl

theorem specLookup_pos (flt : ℕ → Bool) (sv : Value) (n k L : ℕ) (π : List ℕ)
    (hπ : validPath n π) (hLπ : L ∉ π) (hlen : π.length ≤ k) :
    specLookup flt sv n k L π = some (chainVal flt sv π L) := by
  unfold specLookup
  rw [if_pos ⟨hπ, hLπ, hlen⟩]

theorem mem_snoc_ne {L q : ℕ} {π : List ℕ} (hLπ : L ∉ π) (hq : q ≠ L) :
    L ∉ π ++ [q] := by
  intro hm
  rcases List.mem_append.mp hm with hm | hm
  · exact hLπ hm
  · rw [List.mem_singleton] at hm
    exact hq hm.symm

/-- In the fully delivered log, the membership test on extended paths always
succeeds, so the candidate filter of `resolve_decision` reduces to the other
nodes off the path. -/
theorem children_filter_eq (flt : ℕ → Bool) (sv : Value) (n f L : ℕ) (π : List ℕ)
    (hπ : validPath n π) (hLπ : L ∉ π) (hlen : π.length ≤ f) :
    (List.range n).filter (fun q =>
      decide (q ≠ L) && decide (q ∉ π) &&
        (specLookup flt sv n (f + 1) L (π ++ [q])).isSome)
      = (List.range n).filter (fun q => decide (q ≠ L) && decide (q ∉ π)) := by
  apply List.filter_congr
  intro q hq
  have hqn : q < n := List.mem_range.mp hq
  by_cases h1 : q = L
  · simp [h1]
  · by_cases h2 : q ∈ π
    · simp [h1, h2]
    · have hsome : (specLookup flt sv n (f + 1) L (π ++ [q])).isSome = true := by
        rw [specLookup_pos flt sv n (f + 1) L (π ++ [q]) (validPath_snoc hπ hqn h2)
          (mem_snoc_ne hLπ h1) (by rw [List.length_append]; simp; omega)]
        rfl
      simp [h1, h2, hsome]

/-- Lamport's validity lemma in path form: when the last relayer of `π` is
honest, every honest node off the path resolves `π` to the honestly relayed
value, at every recursion depth `g` with `π.length + g = f + 1`. -/
theorem validity_aux (flt : ℕ → Bool) (sv : Value) (n f : ℕ)
    (hn : 3 * f + 1 ≤ n)
    (hcard : ((List.range n).filter (fun i => flt i)).length ≤ f) :
    ∀ g π L, validPath n π → L < n → L ∉ π → flt L = false →
      π.length + g = f + 1 → flt (π.getLastD 0) = false →
      resolveF (List.range n) L (specLookup flt sv n (f + 1) L) g π
        = some (relayVal flt sv π) := by
  intro g
  induction g with
  | zero =>
    intro π L hπ hL hLπ hLh hlen hlast
    show specLookup flt sv n (f + 1) L π = _
    rw [specLookup_pos flt sv n (f + 1) L π hπ hLπ (by omega),
        chainVal_honest flt sv π L (validPath_ne_nil hπ) hlast]
  | succ g ih =>
    intro π L hπ hL hLπ hLh hlen hlast
    have hπne := validPath_ne_nil hπ
    have hπpos : 1 ≤ π.length := List.length_pos.mpr hπne
    have hlenf : π.length ≤ f := by omega
    rw [resolveF_succ, children_filter_eq flt sv n f L π hπ hLπ hlenf,
        specLookup_pos flt sv n (f + 1) L π hπ hLπ (by omega),
        chainVal_honest flt sv π L hπne hlast]
    have hchlen : ((List.range n).filter
        (fun q => decide (q ≠ L) && decide (q ∉ π))).length = n - (π.length + 1) :=
      length_children n L π hπ.2.1 hπ.2.2 hL hLπ
    set ch := (List.range n).filter (fun q => decide (q ≠ L) && decide (q ∉ π)) with hch
    have hmemch : ∀ q ∈ ch, q ≠ L ∧ q ∉ π ∧ q < n := by
      intro q hq
      rw [hch, List.mem_filter] at hq
      obtain ⟨hqr, hqb⟩ := hq
      simp only [Bool.and_eq_true, decide_eq_true_eq] at hqb
      exact ⟨hqb.1, hqb.2, List.mem_range.mp hqr⟩
    have hchild_honest : ∀ q ∈ ch, flt q = false →
        resolveF (List.range n) L (specLookup flt sv n (f + 1) L) g (π ++ [q])
          = some (relayVal flt sv π) := by
      intro q hq hqh
      obtain ⟨hq1, hq2, hq3⟩ := hmemch q hq
      have hlen2 : (π ++ [q]).length + g = f + 1 := by
        rw [List.length_append]
        simp
        omega
      have hlast2 : flt ((π ++ [q]).getLastD 0) = false := by
        rw [getLastD_snoc]
        exact hqh
      rw [ih (π ++ [q]) L (validPath_snoc hπ hq3 hq2) hL (mem_snoc_ne hLπ hq1) hLh
          hlen2 hlast2,
        relayVal_snoc flt sv π q hπne, chainVal_honest flt sv π q hπne hlast]
    have hsplit : ch.countP (fun q => flt q) + ch.countP (fun q => !flt q) = ch.length := by
      have h0 := countP_split (fun _ => true) (fun q => flt q) ch
      simp only [Bool.true_and, List.countP_true] at h0
      omega
    have hfq : ch.countP (fun q => flt q) ≤ f := countP_flt_filter_le n f flt _ hcard
    have hmaplen : ((ch.map (fun q =>
        resolveF (List.range n) L (specLookup flt sv n (f + 1) L) g (π ++ [q]))).length)
        = ch.length := List.length_map _ _
    cases hrel : relayVal flt sv π with
    | Attack =>
      have hcA : (ch.map (fun q =>
          resolveF (List.range n) L (specLookup flt sv n (f + 1) L) g (π ++ [q]))).countP
            (fun v => v == some Value.Attack) ≥ ch.countP (fun q => !flt q) := by
        rw [List.countP_map]
        apply List.countP_mono_left
        intro q hq hqh
        simp only [Bool.not_eq_true'] at hqh
        simp only [Function.comp]
        rw [hchild_honest q hq hqh, hrel]
        rfl
      unfold get_majority
      rw [if_pos ?hgt]
      case hgt =>
        rw [List.countP_cons, List.length_cons, hmaplen]
        have hred : (if (some Value.Attack == some Value.Attack) = true
            then 1 else 0) = 1 := rfl
        rw [hred]
        omega
    | Retreat =>
      have hcA : (ch.map (fun q =>
          resolveF (List.range n) L (specLookup flt sv n (f + 1) L) g (π ++ [q]))).countP
            (fun v => v == some Value.Attack) ≤ ch.countP (fun q => flt q) := by
        rw [List.countP_map]
        apply List.countP_mono_left
        intro q hq hqh
        cases hfltq : flt q with
        | true => rfl
        | false =>
          exfalso
          simp only [Function.comp] at hqh
          rw [hchild_honest q hq hfltq, hrel] at hqh
          exact absurd hqh (by decide)
      unfold get_majority
      rw [if_neg ?hng]
      case hng =>
        rw [List.countP_cons, List.length_cons, hmaplen]
        have hred : (if (some Value.Retreat == some Value.Attack) = true
            then 1 else 0) = 0 := rfl
        rw [hred]
        omega

theorem countP_remove (p : ℕ → Bool) (a : ℕ) :
    ∀ l : List ℕ, l.Nodup → a ∈ l →
      l.countP p = (l.filter (fun x => decide (x ≠ a))).countP p
        + (if p a = true then 1 else 0) := by
  intro l
  induction l with
  | nil => intro _ h; cases h
  | cons b t ih =>
    intro hnd hmem
    have hbt := (List.nodup_cons.mp hnd).1
    have hndt := (List.nodup_cons.mp hnd).2
    rcases List.mem_cons.mp hmem with hab | hat
    · subst hab
      have h1 : (a :: t).filter (fun x => decide (x ≠ a)) = t := by
        rw [List.filter_cons, if_neg (by simp)]
        exact List.filter_eq_self.mpr (fun x hx => by
          simp only [decide_eq_true_eq]
          exact fun he => hbt (he ▸ hx))
      rw [List.countP_cons, h1]
    · have hba : b ≠ a := fun he => hbt (he ▸ hat)
      have hcond : (decide (b ≠ a)) = true := by
        rw [decide_eq_true_eq]
        exact hba
      rw [List.countP_cons, List.filter_cons, if_pos hcond, List.countP_cons,
          ih hndt hat]
      cases hpb : p b <;> cases hpa : p a <;> simp [hpb, hpa]

theorem get_majority_eq_of_counts {vs vs' : List (Option Value)}
    (hA : vs.countP (fun v => v == some Value.Attack)
      = vs'.countP (fun v => v == some Value.Attack))
    (hlen : vs.length = vs'.length) :
    get_majority vs = get_majority vs' := by
  unfold get_majority
  rw [hA, hlen]

/-- The candidate-list Attack count of an honest resolver `M` written in a
form symmetric in `M`: honest candidates contribute their closed-form chain
values (with `M`'s own direct value filling the slot `M` leaves empty), and
faulty candidates contribute their recursive resolutions. -/
theorem countA_eq_base (flt : ℕ → Bool) (sv : Value) (n f : ℕ)
    (hn : 3 * f + 1 ≤ n)
    (hcard : ((List.range n).filter (fun i => flt i)).length ≤ f)
    (g : ℕ) (π : List ℕ) (M : ℕ)
    (hπ : validPath n π) (hM : M < n) (hMπ : M ∉ π) (hMh : flt M = false)
    (hlen : π.length + (g + 1) = f + 1) :
    (some (chainVal flt sv π M) ::
      (((List.range n).filter (fun q => decide (q ≠ M) && decide (q ∉ π))).map
        (fun q => resolveF (List.range n) M (specLookup flt sv n (f + 1) M) g
          (π ++ [q])))).countP (fun v => v == some Value.Attack)
    = ((List.range n).filter (fun q => decide (q ∉ π))).countP
        (fun q => (if flt q = true
          then resolveF (List.range n) M (specLookup flt sv n (f + 1) M) g (π ++ [q])
          else some (chainVal flt sv π q)) == some Value.Attack) := by
  have hπne := validPath_ne_nil hπ
  set base := (List.range n).filter (fun q => decide (q ∉ π)) with hbase
  have hbasend : base.Nodup := (List.nodup_range n).filter _
  have hMbase : M ∈ base := List.mem_filter.mpr ⟨List.mem_range.mpr hM, by simp [hMπ]⟩
  have hchM : base.filter (fun x => decide (x ≠ M))
      = (List.range n).filter (fun q => decide (q ≠ M) && decide (q ∉ π)) := by
    rw [hbase, List.filter_filter]
  rw [List.countP_cons, List.countP_map,
      countP_remove _ M base hbasend hMbase, hchM]
  have hhead : ((if flt M = true
      then resolveF (List.range n) M (specLookup flt sv n (f + 1) M) g (π ++ [M])
      else some (chainVal flt sv π M)) == some Value.Attack)
      = (some (chainVal flt sv π M) == some Value.Attack) := by
    rw [if_neg (by rw [hMh]; exact Bool.false_ne_true)]
  rw [hhead]
  have hcong : ((List.range n).filter (fun q => decide (q ≠ M) && decide (q ∉ π))).countP
      ((fun v => v == some Value.Attack) ∘ (fun q =>
        resolveF (List.range n) M (specLookup flt sv n (f + 1) M) g (π ++ [q])))
      = ((List.range n).filter (fun q => decide (q ≠ M) && decide (q ∉ π))).countP
        (fun q => (if flt q = true
          then resolveF (List.range n) M (specLookup flt sv n (f + 1) M) g (π ++ [q])
          else some (chainVal flt sv π q)) == some Value.Attack) := by
    apply List.countP_congr
    intro q hq
    rw [List.mem_filter] at hq
    obtain ⟨hqr, hqb⟩ := hq
    simp only [Bool.and_eq_true, decide_eq_true_eq] at hqb
    have hqn : q < n := List.mem_range.mp hqr
    cases hfq : flt q with
    | true => rw [Function.comp, if_pos rfl]
    | false =>
      have hres : resolveF (List.range n) M (specLookup flt sv n (f + 1) M) g (π ++ [q])
          = some (chainVal flt sv π q) := by
        rw [validity_aux flt sv n f hn hcard g (π ++ [q]) M
            (validPath_snoc hπ hqn hqb.2) hM (mem_snoc_ne hMπ hqb.1) hMh
            (by rw [List.length_append]; simp; omega)
            (by rw [getLastD_snoc]; exact hfq),
          relayVal_snoc flt sv π q hπne]
      rw [Function.comp, hres, if_neg Bool.false_ne_true]
  rw [hcong]

/-- Lamport's agreement lemma in path form: along an all-faulty path, any two
honest resolvers off the path agree, at every depth with
`π.length + g = f + 1`. -/
theorem agreement_aux (flt : ℕ → Bool) (sv : Value) (n f : ℕ)
    (hn : 3 * f + 1 ≤ n)
    (hcard : ((List.range n).filter (fun i => flt i)).length ≤ f) :
    ∀ g π L M, validPath n π → (∀ i ∈ π, flt i = true) →
      L < n → L ∉ π → flt L = false →
      M < n → M ∉ π → flt M = false →
      π.length + g = f + 1 →
      resolveF (List.range n) L (specLookup flt sv n (f + 1) L) g π
        = resolveF (List.range n) M (specLookup flt sv n (f + 1) M) g π := by
  intro g
  induction g with
  | zero =>
    intro π L M hπ hfltπ hL hLπ hLh hM hMπ hMh hlen
    exfalso
    have := nodup_length_le_faulty n f flt π hπ.2.1 hπ.2.2 hfltπ hcard
    omega
  | succ g ih =>
    intro π L M hπ hfltπ hL hLπ hLh hM hMπ hMh hlen
    have hπne := validPath_ne_nil hπ
    have hlenf : π.length ≤ f := by omega
    rw [resolveF_succ, resolveF_succ,
        children_filter_eq flt sv n f L π hπ hLπ hlenf,
        children_filter_eq flt sv n f M π hπ hMπ hlenf,
        specLookup_pos flt sv n (f + 1) L π hπ hLπ (by omega),
        specLookup_pos flt sv n (f + 1) M π hπ hMπ (by omega)]
    refine congrArg some (get_majority_eq_of_counts ?_ ?_)
    · rw [countA_eq_base flt sv n f hn hcard g π L hπ hL hLπ hLh hlen,
          countA_eq_base flt sv n f hn hcard g π M hπ hM hMπ hMh hlen]
      apply List.countP_congr
      intro q hq
      rw [List.mem_filter] at hq
      obtain ⟨hqr, hqb⟩ := hq
      simp only [decide_eq_true_eq] at hqb
      have hqn : q < n := List.mem_range.mp hqr
      cases hfq : flt q with
      | false => rw [if_neg Bool.false_ne_true, if_neg Bool.false_ne_true]
      | true =>
        have hqL : q ≠ L := fun he => by rw [he, hLh] at hfq; cases hfq
        have hqM : q ≠ M := fun he => by rw [he, hMh] at hfq; cases hfq
        have hallf : ∀ i ∈ π ++ [q], flt i = true := by
          intro i hi
          rcases List.mem_append.mp hi with h | h
          · exact hfltπ i h
          · rw [List.mem_singleton] at h
            subst h
            exact hfq
        have hrec := ih (π ++ [q]) L M (validPath_snoc hπ hqn hqb) hallf
          hL (mem_snoc_ne hLπ hqL) hLh hM (mem_snoc_ne hMπ hqM) hMh
          (by rw [List.length_append]; simp; omega)
        rw [if_pos rfl, if_pos rfl, hrec]
    · rw [List.length_cons, List.length_cons, List.length_map, List.length_map,
          length_children n L π hπ.2.1 hπ.2.2 hL hLπ,
          length_children n M π hπ.2.1 hπ.2.2 hM hMπ]

/-! Message-list characterisation for the two round kinds. -/

theorem get_faulty_value_transmit (nd : Node) (v : Value) (t : ℕ) :
    nd.get_faulty_value v t = transmit v nd.is_faulty t := by
  unfold Node.get_faulty_value transmit
  cases nd.is_faulty <;> simp

theorem mem_buildRound1_shape (n : ℕ) (flt : ℕ → Bool) (Lg : ℕ → List (List ℕ × Value))
    (Dc : ℕ → Option (Option Value)) (sv : Value) (m : Message) :
    m ∈ buildRound1 (shapeNodes n 0 flt Lg Dc) 0 sv ↔
      ∃ i, i < n ∧ i ≠ 0 ∧
        m = { from_id := 0, to_id := i, value := transmit sv (flt 0) i, path := [0] } := by
  cases n with
  | zero =>
    constructor
    · intro h
      exact absurd h (by
        unfold buildRound1 shapeNodes
        simp)
    · rintro ⟨i, hi, -, -⟩
      exact absurd hi (by omega)
  | succ n' =>
    unfold buildRound1
    rw [shapeNodes_getElem (n' + 1) 0 flt Lg Dc 0 (by omega)]
    show m ∈ (shapeNodes (n' + 1) 0 flt Lg Dc).filterMap _ ↔ _
    rw [List.mem_filterMap]
    constructor
    · rintro ⟨nd, hnd, hm⟩
      rw [mem_shapeNodes] at hnd
      obtain ⟨i, hi, rfl⟩ := hnd
      by_cases hi0 : i = 0
      · exfalso
        rw [if_pos (by simp [hi0])] at hm
        exact Option.noConfusion hm
      · rw [if_neg (by simp [hi0])] at hm
        injection hm with hm
        refine ⟨i, hi, hi0, ?_⟩
        rw [← hm, get_faulty_value_transmit]
    · rintro ⟨i, hi, hi0, rfl⟩
      refine ⟨{ id := i, is_sender := decide (i = 0), is_faulty := flt i,
                message_log := Lg i, final_decision := Dc i },
        (mem_shapeNodes _ _ _ _ _ _).mpr ⟨i, hi, rfl⟩, ?_⟩
      rw [if_neg (by simp [hi0])]
      rw [get_faulty_value_transmit]

theorem mem_buildRelay_shape (n r : ℕ) (flt : ℕ → Bool) (Lg : ℕ → List (List ℕ × Value))
    (Dc : ℕ → Option (Option Value)) (m : Message) :
    m ∈ buildRelay (shapeNodes n 0 flt Lg Dc) r ↔
      ∃ p, p < n ∧ ∃ e ∈ Lg p, e.1.length = r - 1 ∧
        ∃ q, q < n ∧ q ≠ p ∧ q ∉ e.1 ∧
          m = { from_id := p, to_id := q, value := transmit e.2 (flt p) q,
                path := e.1 ++ [p] } := by
  unfold buildRelay
  rw [List.mem_flatMap]
  constructor
  · rintro ⟨nd, hnd, hm⟩
    rw [mem_shapeNodes] at hnd
    obtain ⟨p, hp, rfl⟩ := hnd
    rw [List.mem_flatMap] at hm
    obtain ⟨e, he, hm⟩ := hm
    by_cases hlen : e.1.length = r - 1
    · rw [if_pos hlen, List.mem_filterMap] at hm
      obtain ⟨recv, hrecv, hm⟩ := hm
      rw [mem_shapeNodes] at hrecv
      obtain ⟨q, hq, rfl⟩ := hrecv
      by_cases hcond : (q : ℕ) ≠ p ∧ q ∉ e.1
      · rw [if_pos hcond] at hm
        injection hm with hm
        refine ⟨p, hp, e, he, hlen, q, hq, hcond.1, hcond.2, ?_⟩
        rw [← hm, get_faulty_value_transmit]
      · rw [if_neg hcond] at hm
        exact absurd hm (by intro hh; exact Option.noConfusion hh)
    · rw [if_neg hlen] at hm
      cases hm
  · rintro ⟨p, hp, e, he, hlen, q, hq, hqp, hqe, rfl⟩
    refine ⟨{ id := p, is_sender := decide (p = 0), is_faulty := flt p,
              message_log := Lg p, final_decision := Dc p },
      (mem_shapeNodes _ _ _ _ _ _).mpr ⟨p, hp, rfl⟩, ?_⟩
    rw [List.mem_flatMap]
    refine ⟨e, he, ?_⟩
    rw [if_pos hlen, List.mem_filterMap]
    refine ⟨{ id := q, is_sender := decide (q = 0), is_faulty := flt q,
              message_log := Lg q, final_decision := Dc q },
      (mem_shapeNodes _ _ _ _ _ _).mpr ⟨q, hq, rfl⟩, ?_⟩
    rw [if_pos ⟨hqp, hqe⟩, get_faulty_value_transmit]

/-- One round of delivery preserves the log characterisation, provided the
delivered messages are exactly the valid fresh-path messages. -/
theorem goodLog_step (flt : ℕ → Bool) (sv : Value) (n k i : ℕ)
    (lg : List (List ℕ × Value)) (msgs : List Message)
    (hg : GoodLog flt sv n k i lg)
    (hsound : ∀ m ∈ msgs, m.to_id = i →
      validPath n m.path ∧ m.path.length = k + 1 ∧ i ∉ m.path ∧
        m.value = chainVal flt sv m.path i)
    (hcomplete : ∀ κ, validPath n κ → κ.length = k + 1 → i ∉ κ →
      ∃ m ∈ msgs, m.to_id = i ∧ m.path = κ) :
    GoodLog flt sv n (k + 1) i (foldLog i lg msgs) := by
  constructor
  · intro π v hmem
    rcases mem_foldLog i msgs lg π v hmem with h | ⟨m, hm, h1, h2, h3⟩
    · obtain ⟨a, b, c, d⟩ := hg.1 π v h
      exact ⟨a, b, by omega, d⟩
    · obtain ⟨hv, hlen, hni, hval⟩ := hsound m hm h1
      subst h2
      exact ⟨hv, hni, by omega, by rw [← h3, hval]⟩
  · intro π hv hni hlen
    rcases Nat.lt_or_ge π.length (k + 1) with hlt | hge
    · rw [foldLog_isSome]
      exact Or.inl (hg.2 π hv hni (by omega))
    · obtain ⟨m, hm, h1, h2⟩ := hcomplete π hv (by omega) hni
      rw [foldLog_isSome]
      exact Or.inr ⟨m, hm, h1, h2⟩

/-- The decision pass of the final round maps the node shape pointwise. -/
theorem shapeNodes_map_decision (n : ℕ) (flt : ℕ → Bool)
    (Lg : ℕ → List (List ℕ × Value)) (Dc : ℕ → Option (Option Value)) (F sid : ℕ) :
    (shapeNodes n 0 flt Lg Dc).map (fun nd =>
      if nd.is_faulty = false then nd.run_decision (List.range n) F sid else nd)
      = shapeNodes n 0 flt Lg (fun i =>
          if flt i = false
          then some (resolve_decision (List.range n) i (Lg i) F [sid]) else Dc i) := by
  unfold shapeNodes Node.run_decision
  rw [List.map_map]
  apply List.map_congr_left
  intro i _
  simp only [Function.comp]
  by_cases hf : flt i = false
  · rw [if_pos hf, if_pos hf]
  · rw [if_neg hf, if_neg hf]

/-! The reachability invariant. -/

theorem inv_init (n f : ℕ) (sv : Value) (flt : ℕ → Bool) :
    Inv n f sv flt 0 (configuredState n f sv flt) := by
  refine ⟨(fun _ => []), (fun _ => none), rfl, ?_, ?_, rfl, rfl, rfl, rfl, rfl, rfl, rfl, ?_⟩
  · intro i _
    constructor
    · intro π v hmem
      cases hmem
    · intro π hv _ hlen
      exfalso
      have h1 : 1 ≤ π.length := List.length_pos.mpr (validPath_ne_nil hv)
      omega
  · intro i _
    rw [if_neg (fun hc => absurd hc.1 (by omega))]
  · intro m hm
    cases hm

theorem run_next_round_finished {s : SimState} (h : s.simulation_state = Phase.finished) :
    run_next_round s = s := by
  unfold run_next_round
  rw [if_neg (by
    rw [h]
    rintro (h1 | h1) <;> exact Phase.noConfusion h1)]

theorem inv_step (n f : ℕ) (sv : Value) (flt : ℕ → Bool) (k : ℕ) (s : SimState)
    (h : Inv n f sv flt k s) (hk : k ≤ f) :
    Inv n f sv flt (k + 1) (run_next_round s) := by
  obtain ⟨Lg, Dc, hnodes, hgood, hdec, hmf, htn, hcf, hsid, hsv, hcr, hphase, -⟩ := h
  have hguard : s.simulation_state = Phase.ready ∨ s.simulation_state = Phase.running := by
    rw [hphase]
    by_cases h0 : k = 0
    · rw [if_pos h0]
      exact Or.inl rfl
    · rw [if_neg h0, if_pos hk]
      exact Or.inr rfl
  have hmsgs : ∀ m ∈ advance_messages s,
      validPath n m.path ∧ m.path.length = k + 1 ∧ m.to_id ∉ m.path ∧ m.to_id < n ∧
        m.value = chainVal flt sv m.path m.to_id := by
    intro m hm
    unfold advance_messages at hm
    rw [hcr, hsid, hsv, hnodes, hmf] at hm
    by_cases hk0 : k = 0
    · subst hk0
      rw [if_pos rfl, mem_buildRound1_shape] at hm
      obtain ⟨i, hi, hi0, rfl⟩ := hm
      have h0n : 0 < n := by omega
      refine ⟨⟨rfl, List.nodup_singleton 0, ?_⟩, rfl, ?_, hi, ?_⟩
      · intro j hj
        rw [List.mem_singleton] at hj
        subst hj
        exact h0n
      · intro hmem
        rw [List.mem_singleton] at hmem
        exact hi0 hmem
      · rw [chainVal_single]
    · rw [if_neg (by omega), if_pos (by omega), mem_buildRelay_shape] at hm
      obtain ⟨p, hp, e, he, hlen, q, hq, hqp, hqe, rfl⟩ := hm
      obtain ⟨π, v⟩ := e
      obtain ⟨hev, hep, -, heval⟩ := (hgood p hp).1 π v he
      have hπne := validPath_ne_nil hev
      have hπlen : π.length = k := by
        have : π.length = k + 1 - 1 := hlen
        omega
      refine ⟨validPath_snoc hev hp hep, ?_, ?_, hq, ?_⟩
      · rw [List.length_append]
        simp
        omega
      · intro hmem
        rcases List.mem_append.mp hmem with hmm | hmm
        · exact hqe hmm
        · rw [List.mem_singleton] at hmm
          exact hqp hmm
      · rw [chainVal_snoc flt sv π p q hπne, heval]
  have hcomp : ∀ κ x, validPath n κ → κ.length = k + 1 → x < n → x ∉ κ →
      ∃ m ∈ advance_messages s, m.to_id = x ∧ m.path = κ := by
    intro κ x hκ hκlen hx hxκ
    unfold advance_messages
    rw [hcr, hsid, hsv, hnodes, hmf]
    by_cases hk0 : k = 0
    · subst hk0
      rw [if_pos rfl]
      have hκ0 : κ = [0] := by
        obtain ⟨h1, -, -⟩ := hκ
        cases κ with
        | nil => exact Option.noConfusion h1
        | cons a t =>
          cases t with
          | nil =>
            injection h1 with h1
            rw [h1]
          | cons b u => simp at hκlen
      subst hκ0
      have hx0 : x ≠ 0 := fun he => hxκ (by rw [he]; exact List.mem_singleton_self 0)
      refine ⟨{ from_id := 0, to_id := x, value := transmit sv (flt 0) x, path := [0] },
        ?_, rfl, rfl⟩
      rw [mem_buildRound1_shape]
      exact ⟨x, hx, hx0, rfl⟩
    · rw [if_neg (by omega), if_pos (by omega)]
      have h2 : 2 ≤ κ.length := by omega
      obtain ⟨hdecomp, hvdl, hplt, hpnin⟩ := validPath_decompose hκ h2
      have hκl : κ.length = κ.dropLast.length + 1 := by
        conv_lhs => rw [hdecomp]
        rw [List.length_append]
        simp
      have hπlen : κ.dropLast.length = k := by omega
      have hlsome := (hgood _ hplt).2 κ.dropLast hvdl hpnin (by omega)
      obtain ⟨v, hv⟩ := Option.isSome_iff_exists.mp hlsome
      have hmem := dictLookup_eq_some_mem hv
      have hxπ : x ∉ κ.dropLast := fun hc =>
        hxκ (by rw [hdecomp]; exact List.mem_append.mpr (Or.inl hc))
      have hxp : x ≠ κ.getLastD 0 := fun hc =>
        hxκ (by
          rw [hdecomp, hc]
          exact List.mem_append.mpr (Or.inr (List.mem_singleton_self _)))
      refine ⟨{ from_id := κ.getLastD 0, to_id := x,
                value := transmit v (flt (κ.getLastD 0)) x,
                path := κ.dropLast ++ [κ.getLastD 0] },
        ?_, rfl, hdecomp.symm⟩
      rw [mem_buildRelay_shape]
      exact ⟨κ.getLastD 0, hplt, (κ.dropLast, v), hmem, (by simp; omega),
        x, hx, hxp, hxπ, rfl⟩
  have hgood' : ∀ i, i < n →
      GoodLog flt sv n (k + 1) i (foldLog i (Lg i) (advance_messages s)) := by
    intro i hi
    apply goodLog_step flt sv n k i (Lg i) _ (hgood i hi)
    · intro m hm hto
      obtain ⟨a, b, c, d, e⟩ := hmsgs m hm
      exact ⟨a, b, hto ▸ c, hto ▸ e⟩
    · intro κ hκ hκl hiκ
      exact hcomp κ i hκ hκl hi hiκ
  have hmsgInv : ∀ m ∈ advance_messages s,
      m.path.length = k + 1 ∧ m.path.Nodup ∧ m.path.head? = some 0 ∧ m.to_id ∉ m.path := by
    intro m hm
    obtain ⟨⟨hh, hnd, -⟩, hl, hni, -, -⟩ := hmsgs m hm
    exact ⟨hl, hnd, hh, hni⟩
  unfold run_next_round
  rw [if_pos hguard, hcr, hmf, hsid]
  by_cases hkf : k + 1 > f
  · rw [if_pos hkf]
    refine ⟨(fun i => foldLog i (Lg i) (advance_messages s)),
      (fun i => if flt i = false
        then some (resolve_decision (List.range n) i
          (foldLog i (Lg i) (advance_messages s)) f [0]) else Dc i),
      ?_, hgood', ?_, rfl, htn, hcf, rfl, hsv, rfl, ?_, hmsgInv⟩
    · show (deliver_messages s.nodes (advance_messages s)).map _ = _
      rw [hnodes, deliver_shape, shapeNodes_map_id, shapeNodes_map_decision]
    · intro i hi
      dsimp only
      by_cases hfi : flt i = false
      · rw [if_pos hfi, if_pos ⟨by omega, hfi⟩]
      · rw [if_neg hfi, if_neg (fun hc => hfi hc.2)]
        have hold := hdec i hi
        rw [if_neg (fun hc => absurd hc.1 (by omega))] at hold
        exact hold
    · show Phase.finished = _
      rw [if_neg (by omega), if_neg (by omega)]
  · rw [if_neg hkf]
    refine ⟨(fun i => foldLog i (Lg i) (advance_messages s)), Dc,
      ?_, hgood', ?_, rfl, htn, hcf, rfl, hsv, rfl, ?_, hmsgInv⟩
    · show deliver_messages s.nodes (advance_messages s) = _
      rw [hnodes, deliver_shape]
    · intro i hi
      have hold := hdec i hi
      rw [if_neg (fun hc => absurd hc.1 (by omega))] at hold
      rw [if_neg (fun hc => absurd hc.1 (by omega))]
      exact hold
    · show Phase.running = _
      rw [if_neg (by omega), if_pos (by omega)]

theorem inv_iterate (n f : ℕ) (sv : Value) (flt : ℕ → Bool) :
    ∀ k, k ≤ f + 1 → Inv n f sv flt k (run_next_round^[k] (configuredState n f sv flt)) := by
  intro k
  induction k with
  | zero => intro _; exact inv_init n f sv flt
  | succ j ih =>
    intro hj
    rw [Function.iterate_succ_apply']
    exact inv_step n f sv flt j _ (ih (by omega)) (by omega)

theorem inv_runSim (n f : ℕ) (sv : Value) (flt : ℕ → Bool) :
    Inv n f sv flt (f + 1) (runSim n f sv flt) :=
  inv_iterate n f sv flt (f + 1) le_rfl

/-! Extraction lemmas used by the claim theorems. -/

theorem runSim_decision (n f : ℕ) (sv : Value) (flt : ℕ → Bool) (i : ℕ) (hi : i < n)
    (hhon : flt i = false) :
    finalDecisionAt (runSim n f sv flt) i =
      some (resolveF (List.range n) i (specLookup flt sv n (f + 1) i) f [0]) := by
  obtain ⟨Lg, Dc, hnodes, hgood, hdec, -, -, -, -, -, -, -, -⟩ := inv_runSim n f sv flt
  unfold finalDecisionAt
  rw [hnodes, shapeNodes_getElem n 0 flt Lg Dc i hi]
  show Dc i = _
  rw [hdec i hi, if_pos ⟨rfl, hhon⟩, resolve_decision_eq_resolveF,
      goodLog_dictLookup (hgood i hi)]

theorem validPath_root {n : ℕ} (hn : 0 < n) : validPath n [0] := by
  refine ⟨rfl, List.nodup_singleton 0, ?_⟩
  intro j hj
  rw [List.mem_singleton] at hj
  subst hj
  exact hn

theorem iterate_stable (n f : ℕ) (sv : Value) (flt : ℕ → Bool) (j : ℕ) :
    run_next_round^[f + 1 + j] (configuredState n f sv flt) = runSim n f sv flt := by
  induction j with
  | zero => rfl
  | succ i ihj =>
    rw [show f + 1 + (i + 1) = (f + 1 + i) + 1 from rfl, Function.iterate_succ_apply', ihj]
    apply run_next_round_finished
    obtain ⟨-, -, -, -, -, -, -, -, -, -, -, hph, -⟩ := inv_runSim n f sv flt
    rw [hph, if_neg (by omega), if_neg (by omega)]

theorem goodLog_commander_nil {flt : ℕ → Bool} {sv : Value} {n k : ℕ}
    {lg : List (List ℕ × Value)} (hg : GoodLog flt sv n k 0 lg) : lg = [] := by
  cases lg with
  | nil => rfl
  | cons e rest =>
    exfalso
    obtain ⟨π, v⟩ := e
    obtain ⟨⟨hh, -, -⟩, hnot, -, -⟩ := hg.1 π v (List.mem_cons_self _ _)
    apply hnot
    cases π with
    | nil => exact Option.noConfusion hh
    | cons a t =>
      injection hh with hh
      rw [← hh]
      exact List.mem_cons_self a t

theorem commander_log_empty_of_inv {n f k : ℕ} {sv : Value} {flt : ℕ → Bool} {s : SimState}
    (h : Inv n f sv flt k s) (hn : 0 < n) : messageLogAt s 0 = some [] := by
  obtain ⟨Lg, Dc, hnodes, hgood, -⟩ := h
  unfold messageLogAt
  rw [hnodes, shapeNodes_getElem n 0 flt Lg Dc 0 hn]
  show some (Lg 0) = some []
  rw [goodLog_commander_nil (hgood 0 hn)]

/-! Claim theorems. -/

/-- C1 (amended): for every configuration with `f ≥ 0`, `n ≥ 3f + 1`, an
honest commander and at most `f` faulty lieutenants, after the simulation
reaches `finished` every honest lieutenant's `final_decision` equals the
commander's broadcast sender value.  (The commander itself, although an
honest participant whose decision is computed, always decides the default
Retreat — see the counterexample to the claim as stated and C10.) -/
theorem c1_validity_lieutenants (n f : ℕ) (sv : Value) (flt : ℕ → Bool)
    (hn : 3 * f + 1 ≤ n)
    (hcard : ((List.range n).filter (fun i => flt i)).length ≤ f)
    (hcmd : flt 0 = false)
    (i : ℕ) (hi0 : i ≠ 0) (hin : i < n) (hhon : flt i = false) :
    finalDecisionAt (runSim n f sv flt) i = some (some sv) := by
  rw [runSim_decision n f sv flt i hin hhon]
  rw [validity_aux flt sv n f hn hcard f [0] i (validPath_root (by omega)) hin
      (by intro hm; rw [List.mem_singleton] at hm; exact hi0 hm) hhon
      (by rw [List.length_singleton]; omega) hcmd,
    relayVal_single]

theorem c1_validity_lieutenants_witness :
    finalDecisionAt (runSim 4 1 Value.Attack (fun _ => false)) 1
      = some (some Value.Attack) :=
  c1_validity_lieutenants 4 1 Value.Attack (fun _ => false) (by omega) (by decide)
    rfl 1 (by decide) (by decide) rfl

/-- C1 counterexample to the claim as stated: in the run `n = 4`, `f = 1`,
honest commander broadcasting Attack, no faulty lieutenant, the commander —
an honest participant whose `final_decision` is computed by the decision
pass — decides Retreat, not the broadcast value Attack. -/
theorem c1_claim_counterexample :
    ((runSim 4 1 Value.Attack (fun _ => false)).nodes[0]?).map
        (fun nd => (nd.is_faulty, nd.final_decision))
      = some (false, some (some Value.Retreat)) ∧
    some (some Value.Retreat) ≠ (some (some Value.Attack) : Option (Option Value)) := by
  exact ⟨by decide, by decide⟩

/-- C2 (amended): for every valid configuration (`n ≥ 3f + 1`, at most `f`
faulty participants, the commander itself possibly among them), after the
simulation reaches `finished`, all honest lieutenants' `final_decision`
values are identical to one another (and are set).  (The commander, always
honest in reachable runs, decides the default Retreat, which can differ from
the lieutenants' common decision — see the counterexample.) -/
theorem c2_agreement_lieutenants (n f : ℕ) (sv : Value) (flt : ℕ → Bool)
    (hn : 3 * f + 1 ≤ n)
    (hcard : ((List.range n).filter (fun i => flt i)).length ≤ f)
    (i j : ℕ) (hi0 : i ≠ 0) (hin : i < n) (hih : flt i = false)
    (hj0 : j ≠ 0) (hjn : j < n) (hjh : flt j = false) :
    finalDecisionAt (runSim n f sv flt) i = finalDecisionAt (runSim n f sv flt) j ∧
    (finalDecisionAt (runSim n f sv flt) i).isSome = true := by
  have hdi := runSim_decision n f sv flt i hin hih
  have hdj := runSim_decision n f sv flt j hjn hjh
  have hvr : validPath n [0] := validPath_root (by omega)
  have himem : i ∉ [0] := by
    intro hm
    rw [List.mem_singleton] at hm
    exact hi0 hm
  have hjmem : (j : ℕ) ∉ [0] := by
    intro hm
    rw [List.mem_singleton] at hm
    exact hj0 hm
  constructor
  · rw [hdi, hdj]
    cases hc : flt 0 with
    | false =>
      rw [validity_aux flt sv n f hn hcard f [0] i hvr hin himem hih
            (by rw [List.length_singleton]; omega) hc,
          validity_aux flt sv n f hn hcard f [0] j hvr hjn hjmem hjh
            (by rw [List.length_singleton]; omega) hc]
    | true =>
      rw [agreement_aux flt sv n f hn hcard f [0] i j hvr
          (by intro m hm; rw [List.mem_singleton] at hm; subst hm; exact hc)
          hin himem hih hjn hjmem hjh (by rw [List.length_singleton]; omega)]
  · rw [hdi]
    rfl

theorem c2_agreement_lieutenants_witness :
    (finalDecisionAt (runSim 4 1 Value.Attack (fun i => decide (i = 0))) 1
      = finalDecisionAt (runSim 4 1 Value.Attack (fun i => decide (i = 0))) 2) ∧
    (finalDecisionAt (runSim 4 1 Value.Attack (fun i => decide (i = 0))) 1).isSome = true :=
  c2_agreement_lieutenants 4 1 Value.Attack (fun i => decide (i = 0)) (by omega)
    (by decide) 1 2 (by decide) (by decide) (by decide) (by decide) (by decide) (by decide)

/-- C2 counterexample to the claim as stated: in the run `n = 4`, `f = 1`,
honest commander broadcasting Attack, no faulty lieutenant, the two honest
participants 0 (the commander) and 1 decide Retreat and Attack respectively,
so not all honest participants' decisions are identical. -/
theorem c2_claim_counterexample :
    ((runSim 4 1 Value.Attack (fun _ => false)).nodes[0]?).map
        (fun nd => (nd.is_faulty, nd.final_decision))
      = some (false, some (some Value.Retreat)) ∧
    ((runSim 4 1 Value.Attack (fun _ => false)).nodes[1]?).map
        (fun nd => (nd.is_faulty, nd.final_decision))
      = some (false, some (some Value.Attack)) ∧
    (some (some Value.Retreat) : Option (Option Value)) ≠ some (some Value.Attack) := by
  exact ⟨by decide, by decide, by decide⟩

/-- C10: in every run (the GUI restricts `f` to `{1, 2}`, hence `1 ≤ f`; the
sender cannot be toggled faulty, hence the honest-commander hypothesis), no
message is ever delivered to the commander — its message log is empty after
every number of round advances — and the decision pass still computes its
`final_decision`, which is therefore always the majority default Retreat,
regardless of the configured sender value. -/
theorem c10_commander (n f : ℕ) (sv : Value) (flt : ℕ → Bool)
    (hn : 3 * f + 1 ≤ n) (hf1 : 1 ≤ f) (hcmd : flt 0 = false) (k : ℕ) :
    messageLogAt (run_next_round^[k] (configuredState n f sv flt)) 0 = some [] ∧
    finalDecisionAt (runSim n f sv flt) 0 = some (some Value.Retreat) := by
  constructor
  · by_cases hkle : k ≤ f + 1
    · exact commander_log_empty_of_inv (inv_iterate n f sv flt k hkle) (by omega)
    · have hk' : k = f + 1 + (k - (f + 1)) := by omega
      rw [hk', iterate_stable]
      exact commander_log_empty_of_inv (inv_runSim n f sv flt) (by omega)
  · obtain ⟨Lg, Dc, hnodes, hgood, hdec, -⟩ := inv_runSim n f sv flt
    unfold finalDecisionAt
    rw [hnodes, shapeNodes_getElem n 0 flt Lg Dc 0 (by omega)]
    show Dc 0 = _
    rw [hdec 0 (by omega), if_pos ⟨rfl, hcmd⟩, goodLog_commander_nil (hgood 0 (by omega))]
    obtain ⟨g, rfl⟩ : ∃ g, f = g + 1 := ⟨f - 1, by omega⟩
    have hfil : (List.range n).filter (fun q =>
        decide (q ≠ 0) && decide (q ∉ [0]) &&
          (dictLookup [] ([0] ++ [q])).isSome) = [] := by
      apply List.filter_eq_nil_iff.mpr
      intro q _
      rw [dictLookup_nil]
      simp
    show some (some (get_majority (dictLookup [] [0] :: List.map _ _))) = _
    rw [hfil]
    rfl

theorem c10_commander_witness :
    messageLogAt (run_next_round^[3] (configuredState 4 1 Value.Attack (fun _ => false))) 0
      = some [] ∧
    finalDecisionAt (runSim 4 1 Value.Attack (fun _ => false)) 0
      = some (some Value.Retreat) :=
  c10_commander 4 1 Value.Attack (fun _ => false) (by omega) (by omega) rfl 3

theorem countA_add_countR_le (vs : List (Option Value)) :
    vs.countP (fun v => v == some Value.Attack)
      + vs.countP (fun v => v == some Value.Retreat) ≤ vs.length := by
  induction vs with
  | nil => exact Nat.le_refl 0
  | cons v t ih =>
    rw [List.countP_cons, List.countP_cons, List.length_cons]
    rcases v with - | v
    · have e1 : (if ((none : Option Value) == some Value.Attack) = true
          then 1 else 0) = 0 := rfl
      have e2 : (if ((none : Option Value) == some Value.Retreat) = true
          then 1 else 0) = 0 := rfl
      rw [e1, e2]
      omega
    · cases v with
      | Attack =>
        have e1 : (if ((some Value.Attack : Option Value) == some Value.Attack) = true
            then 1 else 0) = 1 := rfl
        have e2 : (if ((some Value.Attack : Option Value) == some Value.Retreat) = true
            then 1 else 0) = 0 := rfl
        rw [e1, e2]
        omega
      | Retreat =>
        have e1 : (if ((some Value.Retreat : Option Value) == some Value.Attack) = true
            then 1 else 0) = 0 := rfl
        have e2 : (if ((some Value.Retreat : Option Value) == some Value.Retreat) = true
            then 1 else 0) = 1 := rfl
        rw [e1, e2]
        omega

/-- C3: `get_majority` returns the domain value whose count strictly exceeds
half the total count (counting every element of the list, including `None`
entries), and returns the default Retreat when Attack has no strict
majority — in particular on ties and on the empty list; the three concrete
examples of the specification hold. -/
theorem c3_get_majority_contract (vs : List (Option Value)) :
    (2 * vs.countP (fun v => v == some Value.Attack) > vs.length →
      get_majority vs = Value.Attack) ∧
    (2 * vs.countP (fun v => v == some Value.Retreat) > vs.length →
      get_majority vs = Value.Retreat) ∧
    (¬ 2 * vs.countP (fun v => v == some Value.Attack) > vs.length →
      get_majority vs = Value.Retreat) ∧
    get_majority [] = Value.Retreat ∧
    get_majority [some Value.Attack, some Value.Attack, some Value.Retreat]
      = Value.Attack ∧
    get_majority [some Value.Attack, some Value.Retreat] = Value.Retreat := by
  refine ⟨?_, ?_, ?_, rfl, rfl, rfl⟩
  · intro h
    unfold get_majority
    rw [if_pos h]
  · intro h
    have hsum := countA_add_countR_le vs
    unfold get_majority
    rw [if_neg (by omega)]
  · intro h
    unfold get_majority
    rw [if_neg h]

theorem c3_get_majority_contract_witness :
    get_majority [some Value.Attack, some Value.Attack, some Value.Retreat]
      = Value.Attack ∧
    get_majority [some Value.Retreat, some Value.Retreat, some Value.Attack]
      = Value.Retreat ∧
    get_majority [some Value.Attack, some Value.Retreat] = Value.Retreat :=
  ⟨(c3_get_majority_contract _).1 (by decide),
   (c3_get_majority_contract _).2.1 (by decide),
   (c3_get_majority_contract _).2.2.1 (by decide)⟩

/-- C4: starting from the `ready` phase of a configured simulation, the
state is not `finished` after any `k ≤ f` advances, is `finished` exactly
after `f + 1` advances, a further advance in `finished` changes nothing, and
the advance that completes round `f + 1` has set every non-faulty
participant's `final_decision` before returning. -/
theorem c4_round_count (n f : ℕ) (sv : Value) (flt : ℕ → Bool) (k i : ℕ)
    (hk : k ≤ f) (hi : i < n) (hhon : flt i = false) :
    (run_next_round^[k] (configuredState n f sv flt)).simulation_state ≠ Phase.finished ∧
    (runSim n f sv flt).simulation_state = Phase.finished ∧
    run_next_round (runSim n f sv flt) = runSim n f sv flt ∧
    (finalDecisionAt (runSim n f sv flt) i).isSome = true := by
  obtain ⟨-, -, -, -, -, -, -, -, -, -, -, hph1, -⟩ := inv_iterate n f sv flt k (by omega)
  obtain ⟨-, -, -, -, -, -, -, -, -, -, -, hph2, -⟩ := inv_runSim n f sv flt
  have hfin : (runSim n f sv flt).simulation_state = Phase.finished := by
    rw [hph2, if_neg (by omega), if_neg (by omega)]
  refine ⟨?_, hfin, run_next_round_finished hfin, ?_⟩
  · rw [hph1]
    by_cases h0 : k = 0
    · rw [if_pos h0]
      intro hc
      exact Phase.noConfusion hc
    · rw [if_neg h0, if_pos hk]
      intro hc
      exact Phase.noConfusion hc
  · rw [runSim_decision n f sv flt i hi hhon]
    rfl

theorem c4_round_count_witness :
    (run_next_round^[1] (configuredState 4 1 Value.Attack (fun _ => false))).simulation_state
      ≠ Phase.finished ∧
    (runSim 4 1 Value.Attack (fun _ => false)).simulation_state = Phase.finished ∧
    run_next_round (runSim 4 1 Value.Attack (fun _ => false))
      = runSim 4 1 Value.Attack (fun _ => false) ∧
    (finalDecisionAt (runSim 4 1 Value.Attack (fun _ => false)) 1).isSome = true :=
  c4_round_count 4 1 Value.Attack (fun _ => false) 1 1 (by decide) (by decide) rfl

/-- C5: every message delivered in round `r` of a reachable run carries a
path of length exactly `r` with no duplicate ids and not containing the
recipient's id. -/
theorem c5_path_invariant (n f : ℕ) (sv : Value) (flt : ℕ → Bool) (r : ℕ)
    (hr1 : 1 ≤ r) (hr2 : r ≤ f + 1) (m : Message)
    (hm : m ∈ (run_next_round^[r] (configuredState n f sv flt)).messages) :
    m.path.length = r ∧ m.path.Nodup ∧ m.to_id ∉ m.path := by
  obtain ⟨-, -, -, -, -, -, -, -, -, -, -, -, hmsg⟩ := inv_iterate n f sv flt r hr2
  obtain ⟨h1, h2, -, h4⟩ := hmsg m hm
  exact ⟨h1, h2, h4⟩

theorem c5_path_invariant_witness :
    ({ from_id := 0, to_id := 1, value := Value.Attack, path := [0] } : Message).path.length
      = 1 ∧
    ({ from_id := 0, to_id := 1, value := Value.Attack, path := [0] } : Message).path.Nodup ∧
    ({ from_id := 0, to_id := 1, value := Value.Attack, path := [0] } : Message).to_id ∉
      ({ from_id := 0, to_id := 1, value := Value.Attack, path := [0] } : Message).path :=
  c5_path_invariant 4 1 Value.Attack (fun _ => false) 1 (by decide) (by decide) _ (by decide)

/-- C6: an honest sender transmits the true value unchanged; a faulty sender
transmits a value depending only on the recipient id — Attack to even ids,
Retreat to odd ids — independent of the true value, deterministically. -/
theorem c6_fault_injector (nd : Node) (v w : Value) (t : ℕ) :
    (nd.is_faulty = false → nd.get_faulty_value v t = v) ∧
    (nd.is_faulty = true → nd.get_faulty_value v t
      = (if t % 2 = 0 then Value.Attack else Value.Retreat)) ∧
    (nd.is_faulty = true → nd.get_faulty_value v t = nd.get_faulty_value w t) := by
  refine ⟨?_, ?_, ?_⟩ <;> intro h <;> unfold Node.get_faulty_value <;> rw [h] <;> simp

theorem c6_fault_injector_witness :
    ({ id := 1, is_sender := false, is_faulty := false, message_log := [],
        final_decision := none } : Node).get_faulty_value Value.Attack 2 = Value.Attack ∧
    ({ id := 1, is_sender := false, is_faulty := true, message_log := [],
        final_decision := none } : Node).get_faulty_value Value.Retreat 2
      = (if 2 % 2 = 0 then Value.Attack else Value.Retreat) ∧
    ({ id := 1, is_sender := false, is_faulty := true, message_log := [],
        final_decision := none } : Node).get_faulty_value Value.Attack 3
      = ({ id := 1, is_sender := false, is_faulty := true, message_log := [],
            final_decision := none } : Node).get_faulty_value Value.Retreat 3 :=
  ⟨(c6_fault_injector _ Value.Attack Value.Attack 2).1 rfl,
   (c6_fault_injector _ Value.Retreat Value.Retreat 2).2.1 rfl,
   (c6_fault_injector _ Value.Attack Value.Retreat 3).2.2 rfl⟩

/-- C7 (amended): a faulty-flag toggle rejected because the phase is not
`ready`, because the clicked node is the sender, or because the faulty quota
is already reached, and a round advance in the terminal phase, all leave the
state exactly as before; a setup rejected by validation, however, leaves the
phase and round counter unchanged but records the newly selected `f` and
clears the participant and message lists. -/
theorem c7_rejected_ops_amended (s : SimState) (t : ℕ) (nd : Node) (fi : ℕ)
    (ni : Option ℤ) (svi : Value) :
    (s.simulation_state ≠ Phase.ready → toggle_faulty s t = s) ∧
    (s.nodes.find? (fun x => x.id == t) = some nd → nd.is_sender = true →
      toggle_faulty s t = s) ∧
    (s.nodes.find? (fun x => x.id == t) = some nd → nd.is_sender = false →
      nd.is_faulty = false → s.max_faulty ≤ s.current_faulty → toggle_faulty s t = s) ∧
    (s.simulation_state = Phase.finished → run_next_round s = s) ∧
    ((setup_simulation s fi ni svi).2 ≠ SetupResult.ok →
      (setup_simulation s fi ni svi).1.simulation_state = s.simulation_state ∧
      (setup_simulation s fi ni svi).1.current_round = s.current_round ∧
      (setup_simulation s fi ni svi).1.nodes = [] ∧
      (setup_simulation s fi ni svi).1.messages = []) := by
  refine ⟨?_, ?_, ?_, fun h => run_next_round_finished h, ?_⟩
  · intro h
    unfold toggle_faulty
    rw [if_pos h]
  · intro hfind hsender
    unfold toggle_faulty
    by_cases hph : s.simulation_state ≠ Phase.ready
    · rw [if_pos hph]
    · rw [if_neg hph, hfind]
      show (if nd.is_sender then s else _) = s
      rw [if_pos hsender]
  · intro hfind hsender hfaulty hquota
    unfold toggle_faulty
    by_cases hph : s.simulation_state ≠ Phase.ready
    · rw [if_pos hph]
    · rw [if_neg hph, hfind]
      show (if nd.is_sender then s else _) = s
      have hs : nd.is_sender ≠ true := by
        rw [hsender]
        exact Bool.false_ne_true
      have hf : nd.is_faulty ≠ true := by
        rw [hfaulty]
        exact Bool.false_ne_true
      rw [if_neg hs, if_neg hf, if_neg (by omega)]
  · intro hne
    match ni with
    | none => exact ⟨rfl, rfl, rfl, rfl⟩
    | some z =>
      by_cases hz : z < ((3 * fi + 1 : ℕ) : ℤ)
      · unfold setup_simulation
        dsimp only
        rw [if_pos hz]
        exact ⟨rfl, rfl, rfl, rfl⟩
      · exfalso
        apply hne
        show (setup_simulation s fi (some z) svi).2 = SetupResult.ok
        unfold setup_simulation
        dsimp only
        rw [if_neg hz]

theorem c7_rejected_ops_amended_witness :
    toggle_faulty (run_next_round (configuredState 4 1 Value.Attack (fun _ => false))) 1
      = run_next_round (configuredState 4 1 Value.Attack (fun _ => false)) ∧
    toggle_faulty (configuredState 4 1 Value.Attack (fun _ => false)) 0
      = configuredState 4 1 Value.Attack (fun _ => false) ∧
    toggle_faulty (configuredState 4 1 Value.Attack (fun i => decide (i = 1))) 2
      = configuredState 4 1 Value.Attack (fun i => decide (i = 1)) ∧
    run_next_round (runSim 4 1 Value.Attack (fun _ => false))
      = runSim 4 1 Value.Attack (fun _ => false) ∧
    ((setup_simulation (configuredState 4 1 Value.Attack (fun _ => false)) 1 (some 3)
        Value.Attack).1.simulation_state
      = (configuredState 4 1 Value.Attack (fun _ => false)).simulation_state ∧
     (setup_simulation (configuredState 4 1 Value.Attack (fun _ => false)) 1 (some 3)
        Value.Attack).1.current_round
      = (configuredState 4 1 Value.Attack (fun _ => false)).current_round ∧
     (setup_simulation (configuredState 4 1 Value.Attack (fun _ => false)) 1 (some 3)
        Value.Attack).1.nodes = [] ∧
     (setup_simulation (configuredState 4 1 Value.Attack (fun _ => false)) 1 (some 3)
        Value.Attack).1.messages = []) :=
  ⟨(c7_rejected_ops_amended _ 1
      { id := 0, is_sender := true, is_faulty := false, message_log := [],
        final_decision := none } 1 none Value.Attack).1 (by decide),
   (c7_rejected_ops_amended _ 0
      { id := 0, is_sender := true, is_faulty := false, message_log := [],
        final_decision := none } 1 none Value.Attack).2.1 (by decide) rfl,
   (c7_rejected_ops_amended _ 2
      { id := 2, is_sender := false, is_faulty := false, message_log := [],
        final_decision := none } 1 none Value.Attack).2.2.1 (by decide) rfl rfl (by decide),
   (c7_rejected_ops_amended (runSim 4 1 Value.Attack (fun _ => false)) 0
      { id := 0, is_sender := true, is_faulty := false, message_log := [],
        final_decision := none } 1 none Value.Attack).2.2.2.1 (by decide),
   (c7_rejected_ops_amended (configuredState 4 1 Value.Attack (fun _ => false)) 0
      { id := 0, is_sender := true, is_faulty := false, message_log := [],
        final_decision := none } 1 (some 3) Value.Attack).2.2.2.2 (by decide)⟩

/-- C7 counterexample to the claim as stated: from a configured simulation
with four nodes, the rejected setup call with `n = 3`, `f = 1` (an invalid
configuration) does not leave the participants as they were — it clears the
node list, so the state after the rejected operation differs from the state
before. -/
theorem c7_setup_counterexample :
    (setup_simulation (configuredState 4 1 Value.Attack (fun _ => false)) 1 (some 3)
        Value.Attack).2 = SetupResult.errBelowMin 4 ∧
    (setup_simulation (configuredState 4 1 Value.Attack (fun _ => false)) 1 (some 3)
        Value.Attack).1.nodes = [] ∧
    (configuredState 4 1 Value.Attack (fun _ => false)).nodes ≠ [] ∧
    (setup_simulation (configuredState 4 1 Value.Attack (fun _ => false)) 1 (some 3)
        Value.Attack).1 ≠ configuredState 4 1 Value.Attack (fun _ => false) := by
  exact ⟨by decide, by decide, by decide, by decide⟩

/-- C8: configuring with `n` below `3f + 1` is rejected with an error
reporting the required minimum `3f + 1` (for `n = 3`, `f = 1`: minimum 4),
the phase is not advanced (in particular, from the initial `setup` phase the
simulation does not proceed to `ready`), and a non-numeric `n` is rejected
with a distinct error. -/
theorem c8_config_validation (s : SimState) (f : ℕ) (z : ℤ) (sv : Value)
    (hz : z < ((3 * f + 1 : ℕ) : ℤ)) :
    (setup_simulation s f (some z) sv).2 = SetupResult.errBelowMin (3 * f + 1) ∧
    (setup_simulation s f (some z) sv).1.simulation_state = s.simulation_state ∧
    (s.simulation_state = Phase.setup →
      (setup_simulation s f (some z) sv).1.simulation_state ≠ Phase.ready) ∧
    (setup_simulation s f none sv).2 = SetupResult.errNonNumeric ∧
    SetupResult.errNonNumeric ≠ SetupResult.errBelowMin (3 * f + 1) := by
  refine ⟨?_, ?_, ?_, rfl, fun hc => SetupResult.noConfusion hc⟩
  · unfold setup_simulation
    dsimp only
    rw [if_pos hz]
  · unfold setup_simulation
    dsimp only
    rw [if_pos hz]
  · intro hs
    unfold setup_simulation
    dsimp only
    rw [if_pos hz]
    show s.simulation_state ≠ Phase.ready
    rw [hs]
    intro hc
    exact Phase.noConfusion hc

theorem c8_config_validation_witness :
    (setup_simulation initialState 1 (some 3) Value.Attack).2
      = SetupResult.errBelowMin 4 ∧
    (setup_simulation initialState 1 (some 3) Value.Attack).1.simulation_state
      = initialState.simulation_state ∧
    (initialState.simulation_state = Phase.setup →
      (setup_simulation initialState 1 (some 3) Value.Attack).1.simulation_state
        ≠ Phase.ready) ∧
    (setup_simulation initialState 1 none Value.Attack).2
      = SetupResult.errNonNumeric ∧
    SetupResult.errNonNumeric ≠ SetupResult.errBelowMin 4 :=
  c8_config_validation initialState 1 3 Value.Attack (by decide)

/-- C9: two runs with identical configuration — same `n`, `f`, sender value
and faulty-id assignment (iteration over participants is in ascending id
order in both) — produce identical per-participant message logs and
identical final decisions. -/
theorem c9_determinism (n₁ n₂ f₁ f₂ : ℕ) (sv₁ sv₂ : Value) (flt₁ flt₂ : ℕ → Bool)
    (hn : n₁ = n₂) (hf : f₁ = f₂) (hsv : sv₁ = sv₂) (hflt : ∀ i, flt₁ i = flt₂ i) :
    (runSim n₁ f₁ sv₁ flt₁).nodes.map Node.message_log
      = (runSim n₂ f₂ sv₂ flt₂).nodes.map Node.message_log ∧
    (runSim n₁ f₁ sv₁ flt₁).nodes.map Node.final_decision
      = (runSim n₂ f₂ sv₂ flt₂).nodes.map Node.final_decision := by
  have hfe : flt₁ = flt₂ := funext hflt
  subst hn hf hsv hfe
  exact ⟨rfl, rfl⟩

theorem c9_determinism_witness :
    (runSim 4 1 Value.Attack (fun i => decide (i = 2))).nodes.map Node.message_log
      = (runSim 4 1 Value.Attack (fun i => decide (i = 2))).nodes.map Node.message_log ∧
    (runSim 4 1 Value.Attack (fun i => decide (i = 2))).nodes.map Node.final_decision
      = (runSim 4 1 Value.Attack (fun i => decide (i = 2))).nodes.map Node.final_decision :=
  c9_determinism 4 4 1 1 Value.Attack Value.Attack (fun i => decide (i = 2))
    (fun i => decide (i = 2)) rfl rfl rfl (fun _ => rfl)

end Byz
